import Mathlib

set_option maxRecDepth 1000000
set_option maxHeartbeats 8000000

/-!
Shallow embedding of the Montgomery modular-arithmetic context, the
Pollard-rho/Brent factoring stage and the orchestrator fragments of the
prime-factorization engine, together with proofs and refutations of the
specified properties.  Machine integers of the original code are modelled
as unbounded integers (the code uses an arbitrary-precision library
throughout); in-place mutation is modelled by explicit state passing.
-/

namespace MathAlgorithms

/-- Bit width of one limb of the big-integer backend (64-bit limbs on the
target platform); used to align the Montgomery radix to whole limbs. -/
def LIMB_BITS : ℕ := 64

/-- Smallest multiple of `b` that is at least `a` (`u32::next_multiple_of`). -/
def nextMultipleOf (a b : ℕ) : ℕ := (a + b - 1) / b * b

/-- Binary length of a natural number, by fuelled halving (`fuel = m`
always suffices since `m/2 < m` for `m > 0`). -/
def bitLenFuel : ℕ → ℕ → ℕ
  | 0, _ => 0
  | fuel + 1, m => if m = 0 then 0 else bitLenFuel fuel (m / 2) + 1

/-- Number of significant bits of a nonnegative integer
(`Integer::significant_bits`). -/
def significantBits (n : ℤ) : ℕ := bitLenFuel n.toNat n.toNat

/-- Hensel-lifting loop of `Context::new`: starting from `n_inv = n` (an
inverse of `n` modulo `2^3` for odd `n`), repeat `n_inv ← n_inv*(2 - n_inv*n)`
doubling the accuracy counter from 3 until it reaches the radix bit length
`rb`.  The source runs an unbounded while loop; here the loop is run on
`fuel` steps, and `fuel = rb` always suffices because the accuracy counter
at least doubles each step (`3·2^rb ≥ rb`), so the guard fails before the
fuel runs out. -/
def henselLoopFuel (n : ℤ) (rb : ℕ) : ℕ → ℕ → ℤ → ℤ
  | 0, _, ninv => ninv
  | fuel + 1, acc, ninv =>
    if acc < rb then henselLoopFuel n rb fuel (2 * acc) (ninv * (2 - ninv * n))
    else ninv

/-- Core of `Context::reduce_mut` on the raw context data: given the radix
bit length `rb`, the constant `n_inv` and the modulus `n`, compute
`t = (((x mod 2^rb) * n_inv) mod 2^rb) * n` and return `((x + t) >> rb, t)`.
`keep_bits` of the big-integer library is the nonnegative remainder
(`Int.emod`), and the arithmetic right shift is flooring division
(`Int.fdiv`). -/
def reduceAux (rb : ℕ) (ninv n x : ℤ) : ℤ × ℤ :=
  let R : ℤ := ((2 ^ rb : ℕ) : ℤ)
  let t := ((x % R) * ninv % R) * n
  ((x + t).fdiv R, t)

/-- Montgomery multiplication context (`montgomery_impl.rs`): precomputed
constants bound to one odd modulus, plus the two scratch integers that
in-place operations overwrite. -/
structure Context where
  n : ℤ
  n2 : ℤ
  n_inv : ℤ
  r_mod_n : ℤ
  r_squared_mod_n : ℤ
  r_cubed_mod_n : ℤ
  r_bit_length : ℕ
  t : ℤ
  t2 : ℤ

/-- `Context::new`: bind the context to modulus `n` (odd, `> 1`), computing
the radix bit length, the Hensel-lifted negated inverse `n_inv`, `r² mod n`,
and then `r mod n` and `r³ mod n` by explicit Montgomery reductions of
`r² mod n` and `(r² mod n)²`.  The scratch fields hold the leftovers of
those two reductions, exactly as in the source. -/
def Context.new (n : ℤ) : Context :=
  let n2 := 2 * n
  let rb := nextMultipleOf (significantBits n + 2) LIMB_BITS
  let hl := henselLoopFuel n rb rb 3 n
  let n_inv := ((2 ^ rb : ℕ) : ℤ) - hl % ((2 ^ rb : ℕ) : ℤ)
  let r_squared_mod_n := ((2 ^ (2 * rb) : ℕ) : ℤ) % n
  let p1 := reduceAux rb n_inv n r_squared_mod_n
  let p2 := reduceAux rb n_inv n (r_squared_mod_n * r_squared_mod_n)
  { n := n, n2 := n2, n_inv := n_inv, r_mod_n := p1.1,
    r_squared_mod_n := r_squared_mod_n, r_cubed_mod_n := p2.1,
    r_bit_length := rb, t := p1.2, t2 := p2.2 }

/-- `Context::change_mod`: rebind the context to a new modulus, recomputing
every constant in place.  The recomputation performs exactly the steps of
`Context::new` (including the final contents of the scratch fields), so the
rebound context equals a freshly constructed one. -/
def Context.change_mod (_c : Context) (n : ℤ) : Context := Context.new n

/-- `Context::reduce_mut`: Montgomery reduction of `x` (assumes `x < r·n`),
returning the updated context (scratch `t` overwritten) and the reduced
value in `[0, 2n)`. -/
def Context.reduce_mut (c : Context) (x : ℤ) : Context × ℤ :=
  let p := reduceAux c.r_bit_length c.n_inv c.n x
  ({ c with t := p.2 }, p.1)

/-- Value computed by `Context::reduce_mut` (the in-place result). -/
def Context.reduceV (c : Context) (x : ℤ) : ℤ := (c.reduce_mut x).2

/-- `Context::mul_assign`: `a ← a·b` followed by Montgomery reduction. -/
def Context.mul_assign (c : Context) (a b : ℤ) : Context × ℤ :=
  c.reduce_mut (a * b)

/-- Value computed by `Context::mul_assign`. -/
def Context.mulV (c : Context) (a b : ℤ) : ℤ := (c.mul_assign a b).2

/-- `Context::square_mut`: square in place, then reduce. -/
def Context.square_mut (c : Context) (a : ℤ) : Context × ℤ :=
  c.reduce_mut (a * a)

/-- Value computed by `Context::square_mut`. -/
def Context.squareV (c : Context) (a : ℤ) : ℤ := (c.square_mut a).2

/-- `Context::cube_mut`: save `a` into scratch `t2`, square in place,
multiply by the saved copy, reduce. -/
def Context.cube_mut (c : Context) (a : ℤ) : Context × ℤ :=
  let c1 : Context := { c with t2 := a }
  let p := c1.square_mut a
  p.1.reduce_mut (p.2 * a)

/-- Value computed by `Context::cube_mut`. -/
def Context.cubeV (c : Context) (a : ℤ) : ℤ := (c.cube_mut a).2

/-- `Context::increment_mut`: add `r mod n`; if the result is exactly `2n`,
replace it by `0`. -/
def Context.increment_mut (c : Context) (x : ℤ) : Context × ℤ :=
  let x1 := x + c.r_mod_n
  (c, if x1 = c.n2 then 0 else x1)

/-- Value computed by `Context::increment_mut`. -/
def Context.incrementV (c : Context) (x : ℤ) : ℤ := (c.increment_mut x).2

/-- `Context::add_assign`: add, then subtract `2n` if the sum reached `2n`. -/
def Context.add_assign (c : Context) (a b : ℤ) : Context × ℤ :=
  let s := a + b
  (c, if c.n2 ≤ s then s - c.n2 else s)

/-- Value computed by `Context::add_assign`. -/
def Context.addV (c : Context) (a b : ℤ) : ℤ := (c.add_assign a b).2

/-- `Context::decrement_mut`: if `x = 0` assign `n - 1`, otherwise subtract
`r mod n`. -/
def Context.decrement_mut (c : Context) (x : ℤ) : Context × ℤ :=
  (c, if x = 0 then c.n - 1 else x - c.r_mod_n)

/-- Value computed by `Context::decrement_mut`. -/
def Context.decrementV (c : Context) (x : ℤ) : ℤ := (c.decrement_mut x).2

/-- `Context::sub_assign`: subtract, then add `2n` if the result is
negative. -/
def Context.sub_assign (c : Context) (a b : ℤ) : Context × ℤ :=
  let d := a - b
  (c, if d < 0 then d + c.n2 else d)

/-- Value computed by `Context::sub_assign`. -/
def Context.subV (c : Context) (a b : ℤ) : ℤ := (c.sub_assign a b).2

/-- `Context::to_montgomery_mut`: multiply by `r² mod n`, then reduce
(assumes `x < 2n`). -/
def Context.to_montgomery_mut (c : Context) (x : ℤ) : Context × ℤ :=
  c.reduce_mut (x * c.r_squared_mod_n)

/-- Value computed by `Context::to_montgomery_mut`. -/
def Context.toMontV (c : Context) (x : ℤ) : ℤ := (c.to_montgomery_mut x).2

/-- `Context::from_montgomery_mut`: one reduction followed by a conditional
subtraction of `n`, producing the canonical value in `[0, n)`. -/
def Context.from_montgomery_mut (c : Context) (x : ℤ) : Context × ℤ :=
  let p := c.reduce_mut x
  (p.1, if c.n ≤ p.2 then p.2 - c.n else p.2)

/-- Value computed by `Context::from_montgomery_mut`. -/
def Context.fromMontV (c : Context) (x : ℤ) : ℤ := (c.from_montgomery_mut x).2

/-- Modular inverse of the external big-integer library
(`Integer::invert_mut`): for `gcd(a, n) = 1` the inverse of `a` modulo `n`,
obtained here from the extended gcd coefficient. -/
def invMod (a n : ℤ) : ℤ := Int.gcdA a n % n

/-- `Context::invert_mut`: library inverse in standard form (absent when
`gcd(a, n) ≠ 1`), then multiply by `r³ mod n` and reduce to land back in
Montgomery form. -/
def Context.invert_mut (c : Context) (a : ℤ) : Option (Context × ℤ) :=
  if Int.gcd a c.n = 1 then some (c.reduce_mut (invMod a c.n * c.r_cubed_mod_n))
  else none

/-!
### Pollard rho with Brent cycle detection (`pollards_rho/mod.rs`)

The two 10-bit random draws `c` and `y` are passed in as explicit
parameters — one realization of the internal randomness.  The context
operations are used value-wise: they only overwrite context scratch
(see the frame theorem), never the constants, and the caller always hands
`pollard_rho_brent` a context freshly bound to `n` (`Factor::update_ctx`
calls `change_mod`, which recomputes all constants exactly as
`Context::new`).
-/

/-- Strict application: `forceInt a f = f a` (both branches of the
conditional are the same term).  The dead comparison only forces the
evaluator to normalize `a` before continuing, so that long iteration
chains do not pile up deeply nested unevaluated terms; it does not change
the computed value (see `forceInt_eq`). -/
def forceInt {α : Type} (a : ℤ) (f : ℤ → α) : α :=
  if a < 1 then f a else f a

/-- One step `y ← y² + c` of the rho iteration (`f` in the source):
square in Montgomery form, then a lazy Montgomery addition of `c`. -/
def rhoStep (ctx : Context) (cm y : ℤ) : ℤ := ctx.addV (ctx.squareV y) cm

/-- Advance `y` by `k` rho steps (the `for _ in 0..r` advance). -/
def rhoAdvance (ctx : Context) (cm : ℤ) : ℕ → ℤ → ℤ
  | 0, y => y
  | k + 1, y => forceInt (rhoStep ctx cm y) (rhoAdvance ctx cm k)

/-- Accumulation kernel shared by the main batches and the backtrack
windows: `count` times, advance the iterate (the first component), and
multiply the accumulator (second component) by the Montgomery difference
`x - iterate`; `x` itself is restored after each subtraction in the source,
i.e. stays fixed. -/
def rhoBatch (ctx : Context) (cm x : ℤ) : ℕ → ℤ × ℤ → ℤ × ℤ
  | 0, s => s
  | k + 1, s =>
    forceInt (rhoStep ctx cm s.1) fun y1 =>
      forceInt (ctx.mulV s.2 (ctx.subV x y1)) fun g1 =>
        rhoBatch ctx cm x k (y1, g1)

/-- The `while k < r && g < 2` loop of one Brent block, acting on
`(y, ys, g)`: each pass resets the accumulator to `r mod n` (the Montgomery
one), snapshots `ys := y`, accumulates `min 4096 (r - k)` differences and
replaces the accumulator by its gcd with `n`; `k` grows by 4096.  The fuel
only bounds the number of passes; 64 always suffices since `r ≤ 2^18`. -/
def rhoBatchLoop (ctx : Context) (n cm x : ℤ) :
    ℕ → ℕ → ℕ → ℤ × ℤ × ℤ → ℤ × ℤ × ℤ
  | 0, _, _, s => s
  | fuel + 1, k, r, s =>
    if k < r ∧ s.2.2 < 2 then
      let p := rhoBatch ctx cm x (min 4096 (r - k)) (s.1, ctx.r_mod_n)
      rhoBatchLoop ctx n cm x fuel (k + 4096) r (p.1, s.1, (Int.gcd p.2 n : ℤ))
    else s

/-- State of the outer Brent loop: the block length `r`, the snapshot `x`,
the iterate `y`, the last batch start `ys` and the accumulator `g`. -/
structure RhoState where
  r : ℕ
  x : ℤ
  y : ℤ
  ys : ℤ
  g : ℤ

/-- The outer `for _ in 0..19` Brent loop: snapshot `x := y`, advance `y`
by `r` steps, run the batch loop, stop as soon as `g > 1`, otherwise double
`r`. -/
def rhoOuter (ctx : Context) (n cm : ℤ) : ℕ → RhoState → RhoState
  | 0, st => st
  | fuel + 1, st =>
    let x := st.y
    let y1 := rhoAdvance ctx cm st.r st.y
    let p := rhoBatchLoop ctx n cm x 64 0 st.r (y1, st.ys, st.g)
    let st1 : RhoState := ⟨st.r, x, p.1, p.2.1, p.2.2⟩
    if 1 < st1.g then st1
    else rhoOuter ctx n cm fuel ⟨2 * st1.r, st1.x, st1.y, st1.ys, st1.g⟩

/-- The backtrack phase entered when the main loop ends with `g = n`: up to
128 windows of 128 single steps replayed from `ys`, each accumulating
differences against the fixed `x` and ending in a gcd; returns `Sum.inl g`
as soon as `1 < g < n`, otherwise `Sum.inr` with the last window's gcd. -/
def rhoFallback (ctx : Context) (n cm x : ℤ) : ℕ → ℤ → ℤ → ℤ ⊕ ℤ
  | 0, _, g => Sum.inr g
  | fuel + 1, ys, _ =>
    let p := rhoBatch ctx cm x 128 (ys, ctx.r_mod_n)
    let g1 : ℤ := (Int.gcd p.2 n : ℤ)
    if 1 < g1 ∧ g1 < n then Sum.inl g1
    else rhoFallback ctx n cm x fuel p.1 g1

/-- The return logic of `pollard_rho_brent` after the main loop: `g = 1`
is failure; `g = n` triggers the backtrack phase; a final value equal to
`n` is failure, anything else is reported as success with that value. -/
def rhoDecide (ctx : Context) (n cm : ℤ) (st : RhoState) : Option ℤ :=
  if st.g = 1 then none
  else
    match (if st.g = n then rhoFallback ctx n cm st.x 128 st.ys st.g else Sum.inr st.g) with
    | Sum.inl g => some g
    | Sum.inr g => if g = n then none else some g

/-- `pollard_rho_brent` for odd `n > 1` bound to a fresh context, with the
two random draws passed in; returns the factor written into `g` on success
and `none` on failure. -/
def pollard_rho_brent (n cIn yIn : ℤ) : Option ℤ :=
  let ctx := Context.new n
  let cm := ctx.toMontV cIn
  let ym := ctx.toMontV yIn
  rhoDecide ctx n cm (rhoOuter ctx n cm 19 ⟨1, 0, ym, 0, 0⟩)

/-!
### A ℕ mirror of the rho loops

All values occurring in a Pollard run on an odd modulus `n > 1` are
nonnegative (and the loop state stays below `2n`), so the run can be
mirrored over ℕ, where the kernel reduces arithmetic on literals
efficiently.  The mirror below is proved to agree with the signed
embedding (`pollard_rho_brent_eq_natPollard`); it is used only to evaluate
concrete runs.
-/

/-- Strict application on ℕ, mirror of `forceInt`: `forceNat a f = f a`. -/
def forceNat {α : Type} (a : ℕ) (f : ℕ → α) : α :=
  if a = 0 then f a else f a

/-- ℕ mirror of one Montgomery reduction (`reduceAux`) for radix `R`. -/
def natReduce (R ninv n x : ℕ) : ℕ := (x + x % R * ninv % R * n) / R

/-- ℕ mirror of `mul_assign`. -/
def natMul (R ninv n a b : ℕ) : ℕ := natReduce R ninv n (a * b)

/-- ℕ mirror of `add_assign` for cap `n2 = 2n`. -/
def natAdd (n2 a b : ℕ) : ℕ :=
  if n2 ≤ a + b then a + b - n2 else a + b

/-- ℕ mirror of `sub_assign` for cap `n2 = 2n` (callers keep `b ≤ n2`). -/
def natSub (n2 a b : ℕ) : ℕ :=
  if a < b then a + n2 - b else a - b

/-- ℕ mirror of `rhoStep`. -/
def natRhoStep (R ninv n n2 cm y : ℕ) : ℕ :=
  natAdd n2 (natReduce R ninv n (y * y)) cm

/-- ℕ mirror of `rhoAdvance`. -/
def natRhoAdvance (R ninv n n2 cm : ℕ) : ℕ → ℕ → ℕ
  | 0, y => y
  | k + 1, y => forceNat (natRhoStep R ninv n n2 cm y) (natRhoAdvance R ninv n n2 cm k)

/-- ℕ mirror of `rhoBatch`. -/
def natRhoBatch (R ninv n n2 cm x : ℕ) : ℕ → ℕ × ℕ → ℕ × ℕ
  | 0, s => s
  | k + 1, s =>
    forceNat (natRhoStep R ninv n n2 cm s.1) fun y1 =>
      forceNat (natMul R ninv n s.2 (natSub n2 x y1)) fun g1 =>
        natRhoBatch R ninv n n2 cm x k (y1, g1)

/-- ℕ mirror of `rhoBatchLoop`. -/
def natRhoBatchLoop (R ninv n n2 cm rmod x : ℕ) :
    ℕ → ℕ → ℕ → ℕ × ℕ × ℕ → ℕ × ℕ × ℕ
  | 0, _, _, s => s
  | fuel + 1, k, r, s =>
    if k < r ∧ s.2.2 < 2 then
      let p := natRhoBatch R ninv n n2 cm x (min 4096 (r - k)) (s.1, rmod)
      natRhoBatchLoop R ninv n n2 cm rmod x fuel (k + 4096) r (p.1, s.1, Nat.gcd p.2 n)
    else s

/-- ℕ mirror of `RhoState`. -/
structure NatRhoState where
  r : ℕ
  x : ℕ
  y : ℕ
  ys : ℕ
  g : ℕ

/-- ℕ mirror of `rhoOuter`. -/
def natRhoOuter (R ninv n n2 cm rmod : ℕ) : ℕ → NatRhoState → NatRhoState
  | 0, st => st
  | fuel + 1, st =>
    let x := st.y
    let y1 := natRhoAdvance R ninv n n2 cm st.r st.y
    let p := natRhoBatchLoop R ninv n n2 cm rmod x 64 0 st.r (y1, st.ys, st.g)
    let st1 : NatRhoState := ⟨st.r, x, p.1, p.2.1, p.2.2⟩
    if 1 < st1.g then st1
    else natRhoOuter R ninv n n2 cm rmod fuel ⟨2 * st1.r, st1.x, st1.y, st1.ys, st1.g⟩

/-- ℕ mirror of `rhoFallback`. -/
def natRhoFallback (R ninv n n2 cm rmod x : ℕ) : ℕ → ℕ → ℕ → ℕ ⊕ ℕ
  | 0, _, g => Sum.inr g
  | fuel + 1, ys, _ =>
    let p := natRhoBatch R ninv n n2 cm x 128 (ys, rmod)
    let g1 := Nat.gcd p.2 n
    if 1 < g1 ∧ g1 < n then Sum.inl g1
    else natRhoFallback R ninv n n2 cm rmod x fuel p.1 g1

/-- ℕ mirror of `rhoDecide`. -/
def natRhoDecide (R ninv n n2 cm rmod : ℕ) (st : NatRhoState) : Option ℕ :=
  if st.g = 1 then none
  else
    match (if st.g = n then natRhoFallback R ninv n n2 cm rmod st.x 128 st.ys st.g
           else Sum.inr st.g) with
    | Sum.inl g => some g
    | Sum.inr g => if g = n then none else some g

/-- ℕ mirror of `pollard_rho_brent` for an odd modulus `nZ > 1` and
nonnegative random draws; proved to agree with the signed embedding. -/
def natPollard (nZ : ℤ) (cIn yIn : ℕ) : Option ℕ :=
  let ctx := Context.new nZ
  let R : ℕ := 2 ^ ctx.r_bit_length
  let ninv := ctx.n_inv.toNat
  let n := nZ.toNat
  let n2 := 2 * n
  let rmod := ctx.r_mod_n.toNat
  let rsq := ctx.r_squared_mod_n.toNat
  let cm := natReduce R ninv n (cIn * rsq)
  let ym := natReduce R ninv n (yIn * rsq)
  natRhoDecide R ninv n n2 cm rmod
    (natRhoOuter R ninv n n2 cm rmod 19 ⟨1, 0, ym, 0, 0⟩)

/-- Componentwise cast of the ℕ mirror state into the signed state. -/
def castRhoState (st : NatRhoState) : RhoState :=
  ⟨st.r, ↑st.x, ↑st.y, ↑st.ys, ↑st.g⟩

/-!
### The factorization orchestrator (prime_factorization/mod.rs) and the
ECM bound constants (data.rs, ecm/mod.rs)

The orchestrator model covers `prime_factorize` from the entry point up to
and including the first `find_exponents` call (lines 110–222): even-factor
stripping, trial division by the 1229 odd primes up to 10007, the
pop-sub-problems dispatch loop with up to three Pollard attempts per
sub-problem, and the exponent extraction. The internal randomness (the two
10-bit draws of each `pollard_rho_brent` call) is passed in as a stream of
`(c, y)` pairs, one pair consumed per call. Values are modeled as ℕ (the
reachable values on positive input are positive); the probable-prime test
`is_probably_prime(20)` of rug/GMP, which is exact on the small values
exercised here, is modeled by an exact trial-division primality test. -/

/-- ECM stage-1 bounds `(B1, B2)` (data.rs line 11). -/
def BOUNDS1 : ℕ × ℕ := (50000, 50 * 50000)

/-- ECM stage-2 bounds `(B1, B2)` (data.rs line 12). -/
def BOUNDS2 : ℕ × ℕ := (500000, 50 * 500000)

/-- Phase-2 block size for the first ECM stage (data.rs line 13). -/
def BLOCK_SIZE_1 : ℕ := 2000

/-- Phase-2 block size for the second ECM stage (data.rs line 14). -/
def BLOCK_SIZE_2 : ℕ := 5000

/-- The phase-2 cursor setup of `ecm_iteration` (ecm/mod.rs lines 221,
233–239): with `half_block_size = block_size / 2` (usize floor division),
the starting block index is `c = (B1 + half_block_size) / block_size`
(usize floor division); the neighbor `Q2` sits one block behind at
`c - 1` (the `montgomery_ladder(Q2, R, c - 1, ...)` call), and after
`c *= block_size` the cursor scalar is `c * block_size`. Returns
`(c, c - 1, c * block_size)`. -/
def ecm_phase2_setup (B1 block_size : ℕ) : ℕ × ℕ × ℕ :=
  let half_block_size := block_size / 2
  let c := (B1 + half_block_size) / block_size
  (c, c - 1, c * block_size)

/-- The starting block index as the SPEC words it: the ceiling
`⌈(B1 + block_size/2) / block_size⌉` (for comparison with the floor the
code computes). -/
def ecm_phase2_cursor_claimed (B1 block_size : ℕ) : ℕ :=
  (B1 + block_size / 2 + block_size - 1) / block_size

/-- Exact trial-division primality kernel, one block: check up to `cnt`
odd divisors `d, d+2, …` while `d * d ≤ x`. `some b` decides (`b = false`:
a divisor was found; `b = true`: the scan passed `√x`), `none` means the
block was exhausted undecided. -/
def isPrimeBlock (x : ℕ) : ℕ → ℕ → Option Bool
  | _, 0 => none
  | d, cnt + 1 =>
    if d * d ≤ x then
      (if x % d = 0 then some false else isPrimeBlock x (d + 2) cnt)
    else some true

/-- Scan odd divisors in blocks of 64 (keeps the evaluation depth low). -/
def isPrimeOuter (x : ℕ) : ℕ → ℕ → Bool
  | _, 0 => true
  | d, fuel + 1 =>
    match isPrimeBlock x d 64 with
    | some b => b
    | none => isPrimeOuter x (d + 128) fuel

/-- Model of `is_probably_prime(20) != IsPrime::No` (exact on the small
values the embedded runs exercise): exact trial division by 2 and the odd
divisors up to `√x`. -/
def isProbablyPrime (x : ℕ) : Bool :=
  if x < 2 then false
  else if x % 2 = 0 then x == 2
  else isPrimeOuter x 3 (x / 128 + 1)

/-- `while v.is_divisible(p) { v.div_exact_mut(p) }`, returning the reduced
value and whether any division happened. -/
def divOut (p : ℕ) : ℕ → ℕ → ℕ × Bool
  | 0, v => (v, false)
  | fuel + 1, v =>
    if p ∣ v then ((divOut p fuel (v / p)).1, true) else (v, false)

/-- Divide out every prime of the list in order (the
`for i in factor.idx..prime_factors.len()` loops), threading the
`value_changed` flag. -/
def reduceByPrimes : List ℕ → ℕ → Bool → ℕ × Bool
  | [], v, ch => (v, ch)
  | p :: ps, v, ch =>
    let r := divOut p (v + 1) v
    reduceByPrimes ps r.1 (ch || r.2)

/-- Divide `v` by `p` while divisible, counting the exponent (the
`while n.is_divisible(p) { n.div_exact_mut(p); exponent += 1 }` pattern). -/
def divOutCount (p : ℕ) : ℕ → ℕ → ℕ → ℕ × ℕ
  | 0, v, e => (v, e)
  | fuel + 1, v, e => if p ∣ v then divOutCount p fuel (v / p) (e + 1) else (v, e)

/-- `trial_division` (mod.rs lines 18–29): for each listed prime dividing
`n`, push `(p, 1)`, divide once, then divide out the rest while counting. -/
def trialDivLoop : List ℕ → ℕ → List (ℕ × ℕ) → ℕ × List (ℕ × ℕ)
  | [], n, factors => (n, factors)
  | p :: ps, n, factors =>
    if p ∣ n then
      let r := divOutCount p (n + 1) (n / p) 1
      trialDivLoop ps r.1 (factors ++ [(p, r.2)])
    else trialDivLoop ps n factors

/-- The primes among `[a, a + len)`. -/
def primesInRange (a len : ℕ) : List ℕ :=
  (List.range' a len).filter fun p => isProbablyPrime p

/-- `primes[1..1230]`: the 1229 odd primes `3, 5, …, 10007` (the slice
skips `primes[0] = 2`; the range `0, …, 10007` is assembled in chunks). -/
def trialPrimes : List ℕ :=
  (primesInRange 0 1000 ++ primesInRange 1000 1000 ++ primesInRange 2000 1000 ++
    primesInRange 3000 1000 ++ primesInRange 4000 1000 ++ primesInRange 5000 1000 ++
    primesInRange 6000 1000 ++ primesInRange 7000 1000 ++ primesInRange 8000 1000 ++
    primesInRange 9000 1000 ++ primesInRange 10000 8).drop 1

/-- Index of the lowest set bit of `m` (for `m ≠ 0`). -/
def lowestSetBitFuel : ℕ → ℕ → ℕ
  | _, 0 => 0
  | m, fuel + 1 => if m % 2 = 1 then 0 else 1 + lowestSetBitFuel (m / 2) fuel

/-- rug's `find_one(0)`: the index of the lowest set bit, `None` for `0`
(for `n ≠ 0` the lowest set bit of the two's complement representation is
the lowest set bit of `|n|`). -/
def find_one (n : ℤ) : Option ℕ :=
  if n = 0 then none else some (lowestSetBitFuel n.natAbs n.natAbs)

/-- Abnormal terminations of the orchestrator model, and where the model
stops following the source. -/
inductive EntryResult where
  /-- `prime_factorize` returned at line 135 (`n == 1` after trial
  division) with the factor list. -/
  | ok : List (ℕ × ℕ) → EntryResult
  /-- The first `find_exponents` finished; execution would continue into
  the ECM stages with this factor list and residual `n`. -/
  | pending : List (ℕ × ℕ) → ℕ → EntryResult
  /-- An `unwrap()` of `None` panicked (`n.find_one(0).unwrap()`). -/
  | panic : EntryResult
  /-- `div_exact_mut` was called with a non-exact division (undefined
  behavior in rug/GMP): current `n` and the divisor `p`. -/
  | ub : ℕ → ℕ → EntryResult
deriving DecidableEq

/-- Write `(n, idx)` into slot `i` of the `temporary_factors` buffer. -/
def setSlot (i : ℕ) (v : ℕ × ℕ) (f : ℕ → ℕ × ℕ) : ℕ → ℕ × ℕ :=
  fun k => if k = i then v else f k

/-- `temporary_factors.swap(i, j)`. -/
def swapSlots (i j : ℕ) (f : ℕ → ℕ × ℕ) : ℕ → ℕ × ℕ :=
  fun k => if k = i then f j else if k = j then f i else f k

/-- State of the dispatch loop (mod.rs lines 143–220): the
`temporary_factors` slots (value and start index into `prime_factors`),
their count, the `prime_factors` list in push order, the `failed_pollard`
flags, and the remaining randomness stream. -/
structure DispatchState where
  temp : ℕ → ℕ × ℕ
  len : ℕ
  primeFactors : List ℕ
  failed : ℕ → Bool
  stream : List (ℕ × ℕ)

/-- The `for _ in 0..3` Pollard retry loop (mod.rs lines 189–219): each
call consumes one `(c, y)` pair from the stream; stop at the first
success. -/
def pollardAttempts (fn : ℕ) : ℕ → List (ℕ × ℕ) → Option ℕ × List (ℕ × ℕ)
  | 0, stream => (none, stream)
  | k + 1, stream =>
    match stream with
    | [] => (none, [])
    | (c, y) :: rest =>
      match natPollard (fn : ℤ) c y with
      | none => pollardAttempts fn k rest
      | some g => (some g, rest)

/-- The `while index > 0` dispatch loop (mod.rs lines 144–220). Each pass
pops slot `index - 1`; a probable prime is pushed onto `prime_factors`
as-is (the STORED residue, before any reduction); otherwise the residue is
reduced by all found primes (the persistent `factor.idx` is never written
and stays 0), the entry's `idx` is refreshed, entries that already failed
Pollard and did not shrink are skipped, and otherwise up to three Pollard
attempts split the entry. -/
def dispatchLoop : ℕ → DispatchState → ℕ → DispatchState
  | 0, st, _ => st
  | fuel + 1, st, index =>
    if index = 0 then st
    else
      let i := index - 1
      let curval := (st.temp i).1
      if isProbablyPrime curval then
        dispatchLoop fuel
          { st with
            temp := swapSlots i (st.len - 1) st.temp
            len := st.len - 1
            primeFactors := st.primeFactors ++ [curval]
            failed := fun j => if j = i then true else st.failed j } i
      else
        let r := reduceByPrimes st.primeFactors curval false
        let fn := r.1
        let changed := r.2
        let st1 : DispatchState :=
          { st with temp := setSlot i ((st.temp i).1, st.primeFactors.length) st.temp }
        if st.failed i && !changed then dispatchLoop fuel st1 i
        else
          let st2 : DispatchState :=
            { st1 with failed := fun j => if j = i then true else st1.failed j }
          match pollardAttempts fn 3 st2.stream with
          | (none, rest) => dispatchLoop fuel { st2 with stream := rest } i
          | (some g, rest) =>
            let fn2 := fn / g
            let pfLen := st2.primeFactors.length
            let temp3 := setSlot i (fn2, pfLen) (setSlot st2.len (g, pfLen) st2.temp)
            let lenNew := st2.len + 1
            let tempFinal :=
              if 1 < lenNew ∧ (temp3 i).1 < (temp3 (lenNew - 1)).1 then
                swapSlots i (lenNew - 1) temp3
              else temp3
            dispatchLoop fuel
              { temp := tempFinal
                len := lenNew
                primeFactors := st2.primeFactors
                failed := fun j =>
                  if j = lenNew - 1 then false
                  else if j = i then false else st2.failed j
                stream := rest } lenNew

/-- Integer square root by digit recursion: from `r = isqrt (x / 4)`, the
root of `x` is `2r` or `2r + 1`. -/
def isqrtAux : ℕ → ℕ → ℕ
  | 0, _ => 0
  | fuel + 1, x =>
    if x = 0 then 0
    else
      let r := 2 * isqrtAux fuel (x / 4)
      if (r + 1) * (r + 1) ≤ x then r + 1 else r

/-- Integer square root (model of rug's `sqrt_mut`). -/
def isqrtFuel (x : ℕ) : ℕ := isqrtAux x x

/-- Model of rug's `is_perfect_square()`. -/
def is_perfect_square (x : ℕ) : Bool := isqrtFuel x * isqrtFuel x == x

/-- `while curval.is_perfect_square() { curval.sqrt_mut(); }`
(ecm/mod.rs lines 344–346). -/
def sqrtLoop : ℕ → ℕ → ℕ
  | 0, v => v
  | fuel + 1, v => if is_perfect_square v then sqrtLoop fuel (isqrtFuel v) else v

/-- The dispatch loop as claim C8 describes it: after popping a
sub-problem, first reduce its residue by every discovered prime, then
replace it by its integer square root while it is a perfect square, and
only then run the probable-prime test. This definition follows the CLAIM's
words (for comparison); it is not what the source does. -/
def dispatchLoopClaimed : ℕ → DispatchState → ℕ → DispatchState
  | 0, st, _ => st
  | fuel + 1, st, index =>
    if index = 0 then st
    else
      let i := index - 1
      let r := reduceByPrimes st.primeFactors (st.temp i).1 false
      let curval := sqrtLoop r.1 r.1
      let changed := r.2
      if isProbablyPrime curval then
        dispatchLoopClaimed fuel
          { st with
            temp := swapSlots i (st.len - 1) st.temp
            len := st.len - 1
            primeFactors := st.primeFactors ++ [curval]
            failed := fun j => if j = i then true else st.failed j } i
      else
        let st1 : DispatchState :=
          { st with temp := setSlot i ((st.temp i).1, st.primeFactors.length) st.temp }
        if st.failed i && !changed then dispatchLoopClaimed fuel st1 i
        else
          let st2 : DispatchState :=
            { st1 with failed := fun j => if j = i then true else st1.failed j }
          match pollardAttempts curval 3 st2.stream with
          | (none, rest) => dispatchLoopClaimed fuel { st2 with stream := rest } i
          | (some g, rest) =>
            let fn2 := curval / g
            let pfLen := st2.primeFactors.length
            let temp3 := setSlot i (fn2, pfLen) (setSlot st2.len (g, pfLen) st2.temp)
            let lenNew := st2.len + 1
            let tempFinal :=
              if 1 < lenNew ∧ (temp3 i).1 < (temp3 (lenNew - 1)).1 then
                swapSlots i (lenNew - 1) temp3
              else temp3
            dispatchLoopClaimed fuel
              { temp := tempFinal
                len := lenNew
                primeFactors := st2.primeFactors
                failed := fun j =>
                  if j = lenNew - 1 then false
                  else if j = i then false else st2.failed j
                stream := rest } lenNew

/-- Initial dispatch state (mod.rs lines 138–143): one entry holding the
trial-division residue with index 0, `failed_pollard[0] = false` (the
remaining flags hold the buffer's initial `true`). -/
def initDispatch (n1 : ℕ) (stream : List (ℕ × ℕ)) : DispatchState :=
  { temp := setSlot 0 (n1, 0) fun _ => (0, 0)
    len := 1
    primeFactors := []
    failed := fun j => if j = 0 then false else true
    stream := stream }

/-- Run the dispatch loop from the initial state (initial `index = 1`). -/
def entryDispatch (n1 : ℕ) (stream : List (ℕ × ℕ)) : DispatchState :=
  dispatchLoop 1000 (initDispatch n1 stream) 1

/-- Run the claim-C8 variant of the dispatch loop from the initial
state. -/
def entryDispatchClaimed (n1 : ℕ) (stream : List (ℕ × ℕ)) : DispatchState :=
  dispatchLoopClaimed 1000 (initDispatch n1 stream) 1

/-- First loop of `find_exponents` (mod.rs lines 37–49): reduce every
stored entry by the primes from its index on, and reset its index. -/
def feLoop1 (primeFactors : List ℕ) : ℕ → ℕ → (ℕ → ℕ × ℕ) → (ℕ → ℕ × ℕ)
  | 0, _, temp => temp
  | k + 1, i, temp =>
    let e := temp i
    let v := (reduceByPrimes (primeFactors.drop e.2) e.1 false).1
    feLoop1 primeFactors k (i + 1) (setSlot i (v, 0) temp)

/-- Second loop of `find_exponents` (mod.rs lines 51–60): for each found
prime, `n.div_exact_mut(p)` — WITHOUT first checking divisibility (if
`p ∤ n` this is undefined behavior, surfaced as `.ub`), then divide out
the rest while counting. -/
def feLoop2 (factors : List (ℕ × ℕ)) : List ℕ → ℕ → EntryResult
  | [], n => .pending factors n
  | p :: ps, n =>
    if p ∣ n then
      let r := divOutCount p (n + 1) (n / p) 1
      feLoop2 (factors ++ [(p, r.2)]) ps r.1
    else .ub n p

/-- `prime_factorize` after the even/trial-division preamble (mod.rs
lines 132–222): trial division, the early return on `n == 1`, the
dispatch loop, then the first `find_exponents`. -/
def entryCore (n : ℕ) (factors0 : List (ℕ × ℕ)) (stream : List (ℕ × ℕ)) : EntryResult :=
  let td := trialDivLoop trialPrimes n factors0
  let n1 := td.1
  let factors := td.2
  if n1 = 1 then .ok factors
  else
    let st1 := entryDispatch n1 stream
    let temp2 := feLoop1 st1.primeFactors st1.len 0 st1.temp
    let _ := temp2
    feLoop2 factors st1.primeFactors n1

/-- The entry of `prime_factorize` (mod.rs lines 123–222): strip the even
part — `find_one(0).unwrap()` PANICS when `n = 0` since 0 has no set
bit — push `(2, e)`, then run `entryCore`. -/
def prime_factorize_model (nIn : ℤ) (stream : List (ℕ × ℕ)) : EntryResult :=
  if 2 ∣ nIn then
    match find_one nIn with
    | none => .panic
    | some e => entryCore ((nIn / 2 ^ e)).toNat [(2, e)] stream
  else entryCore nIn.toNat [] stream

/-- Preprocessing of one `ecm_trial` iteration on the top entry
(ecm/mod.rs lines 329–353): divide out the primes found so far (from the
entry's index on); if the residue collapsed to 1 drop it; otherwise take
the integer square root while the residue is a perfect square, then run
the probable-prime test on the reduced value; non-primes proceed to the
curve arithmetic with that value. -/
inductive EcmPre where
  | droppedOne : EcmPre
  | foundPrime : ℕ → EcmPre
  | toCurve : ℕ → EcmPre
deriving DecidableEq

/-- The preprocessing function itself (ecm/mod.rs lines 329–353). -/
def ecm_preprocess (primeFactors : List ℕ) (curval idx : ℕ) : EcmPre :=
  let v := (reduceByPrimes (primeFactors.drop idx) curval false).1
  if v = 1 then .droppedOne
  else
    let w := sqrtLoop v v
    if isProbablyPrime w then .foundPrime w else .toCurve w

/-- The bound constants of a context (everything except the two scratch
fields `t` and `t2`) agree between `c` and `d`. -/
def Context.sameConstants (c d : Context) : Prop :=
  d.n = c.n ∧ d.n2 = c.n2 ∧ d.n_inv = c.n_inv ∧ d.r_mod_n = c.r_mod_n ∧
  d.r_squared_mod_n = c.r_squared_mod_n ∧ d.r_cubed_mod_n = c.r_cubed_mod_n ∧
  d.r_bit_length = c.r_bit_length

/-! ### Arithmetic facts about the embedded definitions -/

theorem forceInt_eq {α : Type} (a : ℤ) (f : ℤ → α) : forceInt a f = f a := by
  unfold forceInt
  split <;> rfl

theorem castR (rb : ℕ) : ((2 ^ rb : ℕ) : ℤ) = (2 : ℤ) ^ rb := by push_cast; ring

theorem reduceAux_def (rb : ℕ) (ninv n x : ℤ) :
    reduceAux rb ninv n x =
      ((x + x % 2 ^ rb * ninv % 2 ^ rb * n).fdiv (2 ^ rb),
        x % 2 ^ rb * ninv % 2 ^ rb * n) := by
  unfold reduceAux
  rw [castR]

theorem bitLenFuel_lt : ∀ fuel m : ℕ, m ≤ fuel → m < 2 ^ bitLenFuel fuel m := by
  intro fuel
  induction fuel with
  | zero => intro m h; interval_cases m <;> simp [bitLenFuel]
  | succ fuel ih =>
    intro m h
    rw [bitLenFuel]
    by_cases hm : m = 0
    · simp [hm]
    · simp only [hm, if_false]
      have h2 : m / 2 ≤ fuel := by omega
      have := ih (m / 2) h2
      rw [pow_succ]
      omega

theorem significantBits_lt (n : ℤ) (hn : 0 ≤ n) : n < 2 ^ significantBits n := by
  have h := bitLenFuel_lt n.toNat n.toNat le_rfl
  unfold significantBits
  have : (n.toNat : ℤ) < ((2 ^ bitLenFuel n.toNat n.toNat : ℕ) : ℤ) := by exact_mod_cast h
  rw [Int.toNat_of_nonneg hn] at this
  simpa using this

theorem nextMultipleOf_ge (a b : ℕ) (hb : 0 < b) : a ≤ nextMultipleOf a b := by
  unfold nextMultipleOf
  have h := Nat.div_add_mod (a + b - 1) b
  have h2 : (a + b - 1) % b < b := Nat.mod_lt _ hb
  calc a = a + b - 1 - (b - 1) := by omega
    _ ≤ a + b - 1 - (a + b - 1) % b := by apply Nat.sub_le_sub_left; omega
    _ = b * ((a + b - 1) / b) + (a + b - 1) % b - (a + b - 1) % b := by rw [h]
    _ = b * ((a + b - 1) / b) := by omega
    _ = (a + b - 1) / b * b := by rw [Nat.mul_comm]

theorem hensel_step (n ninv : ℤ) (acc : ℕ) (h : (2 : ℤ) ^ acc ∣ ninv * n - 1) :
    (2 : ℤ) ^ (2 * acc) ∣ ninv * (2 - ninv * n) * n - 1 := by
  obtain ⟨k, hk⟩ := h
  refine ⟨-(k ^ 2), ?_⟩
  have he : ninv * (2 - ninv * n) * n - 1 = -((ninv * n - 1) ^ 2) := by ring
  rw [he, hk, two_mul, pow_add]
  ring

theorem henselLoopFuel_dvd (n : ℤ) (rb : ℕ) :
    ∀ (fuel acc : ℕ) (ninv : ℤ), 0 < acc → rb ≤ acc * 2 ^ fuel →
      (2 : ℤ) ^ acc ∣ ninv * n - 1 →
      (2 : ℤ) ^ rb ∣ henselLoopFuel n rb fuel acc ninv * n - 1 := by
  intro fuel
  induction fuel with
  | zero =>
    intro acc ninv hacc hle hdvd
    rw [henselLoopFuel]
    exact dvd_trans (pow_dvd_pow 2 (by simpa using hle)) hdvd
  | succ fuel ih =>
    intro acc ninv hacc hle hdvd
    rw [henselLoopFuel]
    by_cases hlt : acc < rb
    · simp only [hlt, if_true]
      refine ih (2 * acc) _ (by omega) ?_ (hensel_step n ninv acc hdvd)
      have : 2 * acc * 2 ^ fuel = acc * 2 ^ (fuel + 1) := by rw [pow_succ]; ring
      omega
    · simp only [hlt, if_false]
      exact dvd_trans (pow_dvd_pow 2 (by omega)) hdvd

theorem odd_sq_sub_one (n : ℤ) (h : Odd n) : (2 : ℤ) ^ 3 ∣ n * n - 1 := by
  obtain ⟨k, hk⟩ := h
  obtain ⟨m, hm⟩ := Int.even_mul_succ_self k
  refine ⟨m, ?_⟩
  subst hk
  have he : (2 * k + 1) * (2 * k + 1) - 1 = 4 * (k * (k + 1)) := by ring
  rw [he, hm]
  ring

/-! Facts about a single Montgomery reduction step. -/

theorem reduceAux_dvd (rb : ℕ) (ninv n : ℤ)
    (hinv : ninv * n ≡ -1 [ZMOD (2 : ℤ) ^ rb]) (x : ℤ) :
    (2 : ℤ) ^ rb ∣ x + x % 2 ^ rb * ninv % 2 ^ rb * n := by
  have e1 : x % 2 ^ rb ≡ x [ZMOD (2 : ℤ) ^ rb] := Int.emod_emod_of_dvd x dvd_rfl
  have e3 : x % 2 ^ rb * ninv % 2 ^ rb ≡ x * ninv [ZMOD (2 : ℤ) ^ rb] :=
    (Int.emod_emod_of_dvd _ dvd_rfl).trans (e1.mul_right ninv)
  have e4 : x % 2 ^ rb * ninv % 2 ^ rb * n ≡ x * (ninv * n) [ZMOD (2 : ℤ) ^ rb] := by
    have := e3.mul_right n
    rwa [mul_assoc] at this
  have e5 : x * (ninv * n) ≡ x * -1 [ZMOD (2 : ℤ) ^ rb] := hinv.mul_left x
  have e6 : x + x % 2 ^ rb * ninv % 2 ^ rb * n ≡ x + x * -1 [ZMOD (2 : ℤ) ^ rb] :=
    (Int.ModEq.refl x).add (e4.trans e5)
  have e7 : x + x * -1 = 0 := by ring
  rw [e7] at e6
  exact Int.modEq_zero_iff_dvd.mp e6

theorem reduceAux_mul (rb : ℕ) (ninv n : ℤ)
    (hinv : ninv * n ≡ -1 [ZMOD (2 : ℤ) ^ rb]) (x : ℤ) :
    (reduceAux rb ninv n x).1 * 2 ^ rb = x + x % 2 ^ rb * ninv % 2 ^ rb * n := by
  rw [reduceAux_def]
  simp only
  rw [Int.fdiv_eq_ediv _ (by positivity)]
  exact Int.ediv_mul_cancel (reduceAux_dvd rb ninv n hinv x)

theorem reduceAux_modeq (rb : ℕ) (ninv n : ℤ)
    (hinv : ninv * n ≡ -1 [ZMOD (2 : ℤ) ^ rb]) (x : ℤ) :
    (reduceAux rb ninv n x).1 * 2 ^ rb ≡ x [ZMOD n] := by
  rw [reduceAux_mul rb ninv n hinv x]
  simpa [Int.ModEq] using Int.add_mul_emod_self (a := x) (b := x % 2 ^ rb * ninv % 2 ^ rb) (c := n)

theorem reduceAux_nonneg (rb : ℕ) (ninv n x : ℤ) (hn : 0 ≤ n) (hx : 0 ≤ x) :
    0 ≤ (reduceAux rb ninv n x).1 := by
  rw [reduceAux_def]
  simp only
  apply Int.fdiv_nonneg _ (by positivity)
  have hm : 0 ≤ x % 2 ^ rb * ninv % 2 ^ rb := Int.emod_nonneg _ (by positivity)
  positivity

theorem reduceAux_lt (rb : ℕ) (ninv n x : ℤ) (hn : 0 < n) (B : ℤ)
    (hx : x < 2 ^ rb * B) : (reduceAux rb ninv n x).1 < B + n := by
  rw [reduceAux_def]
  simp only
  rw [Int.fdiv_eq_ediv _ (by positivity), Int.ediv_lt_iff_lt_mul (by positivity)]
  have hm1 : 0 ≤ x % 2 ^ rb * ninv % 2 ^ rb := Int.emod_nonneg _ (by positivity)
  have hm2 : x % 2 ^ rb * ninv % 2 ^ rb < 2 ^ rb := Int.emod_lt_of_pos _ (by positivity)
  nlinarith [hm1, hm2, hn]

theorem reduceAux_nonneg_of_gt_neg (rb : ℕ) (ninv n x : ℤ)
    (hinv : ninv * n ≡ -1 [ZMOD (2 : ℤ) ^ rb]) (hn : 0 ≤ n)
    (hx : -(2 ^ rb) < x) : 0 ≤ (reduceAux rb ninv n x).1 := by
  have hmul := reduceAux_mul rb ninv n hinv x
  have hm1 : 0 ≤ x % 2 ^ rb * ninv % 2 ^ rb := Int.emod_nonneg _ (by positivity)
  have hR : (0 : ℤ) < 2 ^ rb := by positivity
  have h1 : (-1 : ℤ) * 2 ^ rb < (reduceAux rb ninv n x).1 * 2 ^ rb := by
    rw [hmul]
    nlinarith [mul_nonneg hm1 hn]
  have h2 : (-1 : ℤ) < (reduceAux rb ninv n x).1 := lt_of_mul_lt_mul_right h1 (le_of_lt hR)
  omega

/-! Facts about the constants of a freshly constructed context. -/

theorem new_ninv_modeq (n : ℤ) (hodd : Odd n) :
    (Context.new n).n_inv * n ≡ -1 [ZMOD (2 : ℤ) ^ (Context.new n).r_bit_length] := by
  set rb := (Context.new n).r_bit_length with hrb
  have hl := henselLoopFuel_dvd n rb rb 3 n (by omega)
    (le_trans (le_of_lt (Nat.lt_two_pow rb)) (Nat.le_mul_of_pos_left _ (by omega)))
    (odd_sq_sub_one n hodd)
  set h := henselLoopFuel n rb rb 3 n with hh
  have hdef : (Context.new n).n_inv = 2 ^ rb - h % 2 ^ rb := by
    have : (Context.new n).n_inv =
        ((2 ^ rb : ℕ) : ℤ) - h % ((2 ^ rb : ℕ) : ℤ) := rfl
    rwa [castR] at this
  have e1 : h * n ≡ 1 [ZMOD (2 : ℤ) ^ rb] := (Int.modEq_iff_dvd.mpr (by simpa using hl)).symm
  have e0 : h % 2 ^ rb ≡ h [ZMOD (2 : ℤ) ^ rb] := Int.emod_emod_of_dvd h dvd_rfl
  have e2 : (2 ^ rb - h % 2 ^ rb) * n ≡ (2 ^ rb - h) * n [ZMOD (2 : ℤ) ^ rb] :=
    ((Int.ModEq.refl (2 ^ rb)).sub e0).mul_right n
  have e3 : (2 ^ rb - h) * n ≡ -1 [ZMOD (2 : ℤ) ^ rb] := by
    have e4 : (2 ^ rb - h) * n = 2 ^ rb * n + -(h * n) := by ring
    have e5 : (2 : ℤ) ^ rb * n + -(h * n) ≡ 0 + -1 [ZMOD (2 : ℤ) ^ rb] := by
      refine Int.ModEq.add ?_ e1.neg
      exact (Int.modEq_zero_iff_dvd.mpr ⟨n, rfl⟩)
    rw [e4]
    simpa using e5
  rw [hdef]
  exact e2.trans e3

theorem new_R_gt (n : ℤ) (hn : 1 < n) :
    4 * n < 2 ^ (Context.new n).r_bit_length := by
  have hrb : (Context.new n).r_bit_length = nextMultipleOf (significantBits n + 2) LIMB_BITS := rfl
  have h1 : significantBits n + 2 ≤ (Context.new n).r_bit_length := by
    rw [hrb]
    exact nextMultipleOf_ge _ _ (by norm_num [LIMB_BITS])
  have h2 : n < 2 ^ significantBits n := significantBits_lt n (by omega)
  calc 4 * n < 4 * 2 ^ significantBits n := by omega
    _ = 2 ^ (significantBits n + 2) := by rw [pow_add]; ring
    _ ≤ 2 ^ (Context.new n).r_bit_length := pow_le_pow_right (by omega) h1

theorem new_coprime (n : ℤ) (hodd : Odd n) (rb : ℕ) : Int.gcd ((2 : ℤ) ^ rb) n = 1 := by
  have h1 : Int.gcd ((2 : ℤ) ^ rb) n = Nat.gcd (((2 : ℤ) ^ rb).natAbs) n.natAbs := rfl
  rw [h1, Int.natAbs_pow]
  have h2 : ((2 : ℤ).natAbs) = 2 := rfl
  rw [h2]
  exact (Nat.coprime_two_left.mpr (Int.natAbs_odd.mpr hodd)).pow_left rb

theorem modeq_cancel_R (n : ℤ) (hn : 0 < n) (hodd : Odd n) (rb : ℕ) {a b : ℤ}
    (h : a * 2 ^ rb ≡ b * 2 ^ rb [ZMOD n]) : a ≡ b [ZMOD n] := by
  have hg : Int.gcd n ((2 : ℤ) ^ rb) = 1 := by
    rw [Int.gcd_comm]
    exact new_coprime n hodd rb
  have := Int.ModEq.cancel_right_div_gcd hn h
  rwa [hg, Nat.cast_one, Int.ediv_one] at this

/-! Specifications of the individual context operations, for a freshly
constructed context on an odd modulus `n > 1`. -/

theorem new_rsq_bounds (n : ℤ) (hn : 1 < n) :
    0 ≤ (Context.new n).r_squared_mod_n ∧ (Context.new n).r_squared_mod_n < n := by
  have hd : (Context.new n).r_squared_mod_n = 2 ^ (2 * (Context.new n).r_bit_length) % n := by
    have : (Context.new n).r_squared_mod_n =
        ((2 ^ (2 * (Context.new n).r_bit_length) : ℕ) : ℤ) % n := rfl
    rwa [castR] at this
  rw [hd]
  exact ⟨Int.emod_nonneg _ (by omega), Int.emod_lt_of_pos _ (by omega)⟩

theorem new_rsq_modeq (n : ℤ) (hn : 1 < n) :
    (Context.new n).r_squared_mod_n ≡
      2 ^ (Context.new n).r_bit_length * 2 ^ (Context.new n).r_bit_length [ZMOD n] := by
  have hd : (Context.new n).r_squared_mod_n = 2 ^ (2 * (Context.new n).r_bit_length) % n := by
    have : (Context.new n).r_squared_mod_n =
        ((2 ^ (2 * (Context.new n).r_bit_length) : ℕ) : ℤ) % n := rfl
    rwa [castR] at this
  rw [hd, two_mul, pow_add]
  exact Int.emod_emod_of_dvd _ dvd_rfl

theorem reduceV_eq (c : Context) (x : ℤ) :
    c.reduceV x = (reduceAux c.r_bit_length c.n_inv c.n x).1 := rfl

theorem new_reduceV_modeq (n : ℤ) (hodd : Odd n) (x : ℤ) :
    (Context.new n).reduceV x * 2 ^ (Context.new n).r_bit_length ≡ x [ZMOD n] := by
  rw [reduceV_eq]
  exact reduceAux_modeq _ _ _ (new_ninv_modeq n hodd) x

theorem new_reduceV_nonneg (n : ℤ) (hn : 1 < n) (x : ℤ) (hx : 0 ≤ x) :
    0 ≤ (Context.new n).reduceV x := by
  rw [reduceV_eq]
  exact reduceAux_nonneg _ _ _ _ (show (0 : ℤ) ≤ n by omega) hx

theorem new_reduceV_lt (n : ℤ) (hn : 1 < n) (x B : ℤ)
    (hx : x < 2 ^ (Context.new n).r_bit_length * B) :
    (Context.new n).reduceV x < B + n := by
  rw [reduceV_eq]
  exact reduceAux_lt _ _ _ _ (show (0 : ℤ) < n by omega) B hx

theorem new_toMontV_spec (n : ℤ) (hodd : Odd n) (hn : 1 < n) (a : ℤ)
    (h0 : 0 ≤ a) (h1 : a < 2 * n) :
    0 ≤ (Context.new n).toMontV a ∧ (Context.new n).toMontV a < 2 * n ∧
    (Context.new n).toMontV a ≡ a * 2 ^ (Context.new n).r_bit_length [ZMOD n] := by
  obtain ⟨hq0, hq1⟩ := new_rsq_bounds n hn
  have hR := new_R_gt n hn
  have heq : (Context.new n).toMontV a =
      (Context.new n).reduceV (a * (Context.new n).r_squared_mod_n) := rfl
  have hb : a * (Context.new n).r_squared_mod_n < 2 ^ (Context.new n).r_bit_length * n := by
    nlinarith
  have h2 : 0 ≤ (Context.new n).toMontV a := by
    rw [heq]
    exact new_reduceV_nonneg n hn _ (by positivity)
  have h3 : (Context.new n).toMontV a < 2 * n := by
    rw [heq]
    have := new_reduceV_lt n hn _ n hb
    omega
  refine ⟨h2, h3, ?_⟩
  have h4 : (Context.new n).toMontV a * 2 ^ (Context.new n).r_bit_length ≡
      a * (Context.new n).r_squared_mod_n [ZMOD n] := by
    rw [heq]
    exact new_reduceV_modeq n hodd _
  have h5 : a * (Context.new n).r_squared_mod_n ≡
      a * 2 ^ (Context.new n).r_bit_length * 2 ^ (Context.new n).r_bit_length [ZMOD n] := by
    have := (new_rsq_modeq n hn).mul_left a
    rwa [← mul_assoc] at this
  exact modeq_cancel_R n (by omega) hodd _ (h4.trans h5)

theorem new_mulV_spec (n : ℤ) (hodd : Odd n) (hn : 1 < n) (a b : ℤ)
    (ha0 : 0 ≤ a) (ha1 : a < 2 * n) (hb0 : 0 ≤ b) (hb1 : b < 2 * n) :
    0 ≤ (Context.new n).mulV a b ∧ (Context.new n).mulV a b < 2 * n ∧
    (Context.new n).mulV a b * 2 ^ (Context.new n).r_bit_length ≡ a * b [ZMOD n] := by
  have hR := new_R_gt n hn
  have heq : (Context.new n).mulV a b = (Context.new n).reduceV (a * b) := rfl
  have hb2 : a * b < 2 ^ (Context.new n).r_bit_length * n := by nlinarith
  refine ⟨?_, ?_, ?_⟩
  · rw [heq]; exact new_reduceV_nonneg n hn _ (by positivity)
  · rw [heq]
    have := new_reduceV_lt n hn _ n hb2
    omega
  · rw [heq]; exact new_reduceV_modeq n hodd _

theorem new_fromMontV_spec (n : ℤ) (hodd : Odd n) (hn : 1 < n) (x : ℤ)
    (h0 : 0 ≤ x) (h1 : x < 2 * n) :
    0 ≤ (Context.new n).fromMontV x ∧ (Context.new n).fromMontV x < n ∧
    (Context.new n).fromMontV x * 2 ^ (Context.new n).r_bit_length ≡ x [ZMOD n] := by
  have hR := new_R_gt n hn
  have hy0 : 0 ≤ (Context.new n).reduceV x := new_reduceV_nonneg n hn x h0
  have hy1 : (Context.new n).reduceV x < 1 + n := by
    apply new_reduceV_lt n hn x 1
    omega
  have hym := new_reduceV_modeq n hodd x
  have heq : (Context.new n).fromMontV x =
      (if n ≤ (Context.new n).reduceV x then (Context.new n).reduceV x - n
       else (Context.new n).reduceV x) := rfl
  rw [heq]
  split
  case isTrue h =>
    refine ⟨by omega, by omega, ?_⟩
    have hd : ((Context.new n).reduceV x - n) * 2 ^ (Context.new n).r_bit_length =
        (Context.new n).reduceV x * 2 ^ (Context.new n).r_bit_length +
          (-(2 ^ (Context.new n).r_bit_length)) * n := by ring
    calc ((Context.new n).reduceV x - n) * 2 ^ (Context.new n).r_bit_length
        ≡ (Context.new n).reduceV x * 2 ^ (Context.new n).r_bit_length [ZMOD n] := by
          rw [hd]
          simpa [Int.ModEq] using
            Int.add_mul_emod_self (a := (Context.new n).reduceV x *
              2 ^ (Context.new n).r_bit_length) (b := -(2 ^ (Context.new n).r_bit_length)) (c := n)
      _ ≡ x [ZMOD n] := hym
  case isFalse h => exact ⟨hy0, by omega, hym⟩

/-! ### C1: the Montgomery reduction invariant -/

/-- C1 (confirmed): for every odd modulus `n > 1` with a freshly constructed
context, and every `x` with `0 ≤ x < r·n`, the Montgomery reduction step is
exact (`r` divides `x + m·n` for `m = ((x mod r)·n_inv) mod r`), its result
is congruent to `x·r⁻¹` modulo `n` (stated multiplicatively:
`result·r ≡ x (mod n)`), and the result lies in `[0, 2n)`.  The embedded
`reduce_mut` is total, so the step always terminates. -/
theorem montgomery_reduction_invariant (n x : ℤ) (hodd : Odd n) (hn : 1 < n)
    (hx0 : 0 ≤ x) (hx1 : x < 2 ^ (Context.new n).r_bit_length * n) :
    (2 : ℤ) ^ (Context.new n).r_bit_length ∣
        x + x % 2 ^ (Context.new n).r_bit_length * (Context.new n).n_inv
          % 2 ^ (Context.new n).r_bit_length * n ∧
    ((Context.new n).reduce_mut x).2 * 2 ^ (Context.new n).r_bit_length ≡ x [ZMOD n] ∧
    0 ≤ ((Context.new n).reduce_mut x).2 ∧ ((Context.new n).reduce_mut x).2 < 2 * n := by
  have hinv := new_ninv_modeq n hodd
  refine ⟨reduceAux_dvd _ _ _ hinv x, new_reduceV_modeq n hodd x, new_reduceV_nonneg n hn x hx0, ?_⟩
  have h1 := new_reduceV_lt n hn x n hx1
  have h2 : (Context.new n).reduceV x = ((Context.new n).reduce_mut x).2 := rfl
  omega

/-- Witness for C1 at `n = 7`, `x = 5`. -/
theorem montgomery_reduction_invariant_witness :
    0 ≤ ((Context.new 7).reduce_mut 5).2 ∧ ((Context.new 7).reduce_mut 5).2 < 2 * 7 :=
  (montgomery_reduction_invariant 7 5 ⟨3, by norm_num⟩ (by norm_num) (by norm_num)
    (by decide)).2.2

/-! ### C3: the Montgomery multiplication identity -/

/-- C3 (confirmed): for every odd modulus `n > 1` and `a, b ∈ [0, n)`,
converting to Montgomery form, multiplying and converting back yields
`(a·b) mod n`. -/
theorem montgomery_mul_identity (n a b : ℤ) (hodd : Odd n) (hn : 1 < n)
    (ha0 : 0 ≤ a) (ha1 : a < n) (hb0 : 0 ≤ b) (hb1 : b < n) :
    (Context.new n).fromMontV
      ((Context.new n).mulV ((Context.new n).toMontV a) ((Context.new n).toMontV b)) =
      a * b % n := by
  obtain ⟨hA0, hA1, hAm⟩ := new_toMontV_spec n hodd hn a ha0 (by omega)
  obtain ⟨hB0, hB1, hBm⟩ := new_toMontV_spec n hodd hn b hb0 (by omega)
  obtain ⟨hM0, hM1, hMm⟩ := new_mulV_spec n hodd hn _ _ hA0 hA1 hB0 hB1
  obtain ⟨hF0, hF1, hFm⟩ := new_fromMontV_spec n hodd hn _ hM0 hM1
  set R : ℤ := 2 ^ (Context.new n).r_bit_length with hR
  set A := (Context.new n).toMontV a
  set B := (Context.new n).toMontV b
  set M := (Context.new n).mulV A B
  set F := (Context.new n).fromMontV M
  have hM2 : M ≡ a * b * R [ZMOD n] := by
    apply modeq_cancel_R n (by omega) hodd
    have h1 : A * B ≡ a * R * (b * R) [ZMOD n] := hAm.mul hBm
    have h2 : a * R * (b * R) = a * b * R * R := by ring
    rw [h2] at h1
    exact hMm.trans h1
  have hF2 : F ≡ a * b [ZMOD n] := by
    apply modeq_cancel_R n (by omega) hodd
    exact hFm.trans hM2
  have hF3 : F % n = a * b % n := hF2
  rwa [Int.emod_eq_of_lt hF0 hF1] at hF3

/-- Witness for C3 at `n = 7`, `a = 3`, `b = 5`. -/
theorem montgomery_mul_identity_witness :
    (Context.new 7).fromMontV
      ((Context.new 7).mulV ((Context.new 7).toMontV 3) ((Context.new 7).toMontV 5)) =
      3 * 5 % 7 :=
  montgomery_mul_identity 7 3 5 ⟨3, by norm_num⟩ (by norm_num) (by norm_num) (by norm_num)
    (by norm_num) (by norm_num)

/-! ### C6: the decrement identity fails on the zero branch -/

/-- C6 (code bug): at `n = 7`, `a = 0`, the round trip
`from_montgomery (decrement (to_montgomery a))` returns `3`, while
`(a - 1) mod n = 6`: the zero branch of `decrement_mut` assigns the
standard-form value `n - 1` instead of a Montgomery representative of `-1`
(`n - (r mod n)` or `2n - (r mod n)`), so the subsequent conversion divides
it by `r` once more. -/
theorem decrement_identity_bug :
    (Context.new 7).fromMontV ((Context.new 7).decrementV ((Context.new 7).toMontV 0)) = 3 ∧
    (0 - 1 : ℤ) % 7 = 6 :=
  ⟨by decide, by decide⟩

/-! ### C4: the lazy-bound invariant -/

theorem new_rmod_eq (n : ℤ) :
    (Context.new n).r_mod_n = (Context.new n).reduceV (Context.new n).r_squared_mod_n := rfl

theorem new_rmod_nonneg (n : ℤ) (hn : 1 < n) : 0 ≤ (Context.new n).r_mod_n := by
  rw [new_rmod_eq]
  exact new_reduceV_nonneg n hn _ (new_rsq_bounds n hn).1

theorem squareV_eq (c : Context) (a : ℤ) : c.squareV a = c.mulV a a := rfl

theorem cubeV_eq (c : Context) (a : ℤ) : c.cubeV a = c.reduceV (c.squareV a * a) := rfl

/-- C4 counterexample: for `n = 7` the input `1` lies in `[0, 2n)` but
`decrement` produces `-1 ∉ [0, 2n)` (it subtracts `r mod 7 = 2` with no
wrap handling for nonzero inputs below `r mod n`). -/
theorem lazy_bound_counterexample :
    ((0 : ℤ) ≤ 1 ∧ (1 : ℤ) < 2 * 7) ∧ (Context.new 7).decrementV 1 = -1 ∧
    ¬ 0 ≤ (Context.new 7).decrementV 1 :=
  ⟨⟨by norm_num, by norm_num⟩, by decide, by decide⟩

/-- C4 (amended): for every odd modulus `n > 1`, the operations `mul`,
`square`, `cube`, `add`, `sub`, `to_montgomery` and `reduce` map inputs in
`[0, 2n)` to results in `[0, 2n)`; `increment` does so only when
`x + (r mod n) ≤ 2n`, and `decrement` only when `x = 0` or `x ≥ r mod n`
(outside those domains they leave `[0, 2n)`, see the counterexample). -/
theorem lazy_bound_invariant_amended (n a b x : ℤ) (hodd : Odd n) (hn : 1 < n)
    (ha0 : 0 ≤ a) (ha1 : a < 2 * n) (hb0 : 0 ≤ b) (hb1 : b < 2 * n)
    (hx0 : 0 ≤ x) (hx1 : x < 2 * n) :
    (0 ≤ (Context.new n).mulV a b ∧ (Context.new n).mulV a b < 2 * n) ∧
    (0 ≤ (Context.new n).squareV a ∧ (Context.new n).squareV a < 2 * n) ∧
    (0 ≤ (Context.new n).cubeV a ∧ (Context.new n).cubeV a < 2 * n) ∧
    (0 ≤ (Context.new n).addV a b ∧ (Context.new n).addV a b < 2 * n) ∧
    (0 ≤ (Context.new n).subV a b ∧ (Context.new n).subV a b < 2 * n) ∧
    (0 ≤ (Context.new n).toMontV x ∧ (Context.new n).toMontV x < 2 * n) ∧
    (0 ≤ (Context.new n).reduceV x ∧ (Context.new n).reduceV x < 2 * n) ∧
    (x + (Context.new n).r_mod_n ≤ 2 * n →
      0 ≤ (Context.new n).incrementV x ∧ (Context.new n).incrementV x < 2 * n) ∧
    (x = 0 ∨ (Context.new n).r_mod_n ≤ x →
      0 ≤ (Context.new n).decrementV x ∧ (Context.new n).decrementV x < 2 * n) := by
  have hR := new_R_gt n hn
  have hrm0 := new_rmod_nonneg n hn
  obtain ⟨hm0, hm1, _⟩ := new_mulV_spec n hodd hn a b ha0 ha1 hb0 hb1
  obtain ⟨hs0, hs1, _⟩ := new_mulV_spec n hodd hn a a ha0 ha1 ha0 ha1
  refine ⟨⟨hm0, hm1⟩, ⟨by rw [squareV_eq]; exact hs0, by rw [squareV_eq]; exact hs1⟩,
    ?_, ?_, ?_, ?_, ?_, ?_, ?_⟩
  · rw [cubeV_eq, squareV_eq]
    constructor
    · apply new_reduceV_nonneg n hn
      positivity
    · have hb2 : (Context.new n).mulV a a * a < 2 ^ (Context.new n).r_bit_length * n := by
        nlinarith
      have := new_reduceV_lt n hn _ n hb2
      omega
  · have heq : (Context.new n).addV a b =
        if 2 * n ≤ a + b then a + b - 2 * n else a + b := rfl
    rw [heq]
    split <;> omega
  · have heq : (Context.new n).subV a b =
        if a - b < 0 then a - b + 2 * n else a - b := rfl
    rw [heq]
    split <;> omega
  · obtain ⟨h1, h2, _⟩ := new_toMontV_spec n hodd hn x hx0 hx1
    exact ⟨h1, h2⟩
  · constructor
    · exact new_reduceV_nonneg n hn x hx0
    · have h2 : (2 : ℤ) ^ (Context.new n).r_bit_length * 1 ≤
          2 ^ (Context.new n).r_bit_length * n := by
        apply mul_le_mul_of_nonneg_left (by omega) (by positivity)
      have h3 : x < 2 ^ (Context.new n).r_bit_length * n := by omega
      have := new_reduceV_lt n hn x n h3
      omega
  · intro hdom
    have heq : (Context.new n).incrementV x =
        if x + (Context.new n).r_mod_n = 2 * n then 0 else x + (Context.new n).r_mod_n := rfl
    rw [heq]
    split <;> omega
  · intro hdom
    have heq : (Context.new n).decrementV x =
        if x = 0 then n - 1 else x - (Context.new n).r_mod_n := rfl
    rw [heq]
    rcases hdom with h | h
    · simp only [h, if_true]
      omega
    · have hx' : ¬ x = 0 ∨ x = 0 := by tauto
      split <;> omega

/-- Witness for the amended C4 at `n = 7`, `a = 3` (cube clause) and
`x = 9` (decrement clause, `9 ≥ r mod 7 = 2`). -/
theorem lazy_bound_invariant_amended_witness :
    (0 ≤ (Context.new 7).cubeV 3 ∧ (Context.new 7).cubeV 3 < 2 * 7) ∧
    (0 ≤ (Context.new 7).decrementV 9 ∧ (Context.new 7).decrementV 9 < 2 * 7) := by
  have h := lazy_bound_invariant_amended 7 3 5 9 ⟨3, by norm_num⟩ (by norm_num)
    (by norm_num) (by norm_num) (by norm_num) (by norm_num) (by norm_num) (by norm_num)
  exact ⟨h.2.2.1, h.2.2.2.2.2.2.2.2 (Or.inr (by decide))⟩

/-! ### C10: the frame property of the context operations -/

/-- C10 (confirmed): every context operation — reduce, mul, square, cube,
add, sub, increment, decrement, to_montgomery, from_montgomery and invert —
leaves the bound constants `n`, `n2`, `n_inv`, `r_mod_n`, `r_squared_mod_n`,
`r_cubed_mod_n` and `r_bit_length` unchanged; only the scratch fields `t`
and `t2` are ever overwritten.  (For `invert`, which can fail, the returned
context of a successful call is compared; a failed call returns no
context.) -/
theorem context_operations_frame (c : Context) (x y : ℤ) :
    Context.sameConstants c (c.reduce_mut x).1 ∧
    Context.sameConstants c (c.mul_assign x y).1 ∧
    Context.sameConstants c (c.square_mut x).1 ∧
    Context.sameConstants c (c.cube_mut x).1 ∧
    Context.sameConstants c (c.add_assign x y).1 ∧
    Context.sameConstants c (c.sub_assign x y).1 ∧
    Context.sameConstants c (c.increment_mut x).1 ∧
    Context.sameConstants c (c.decrement_mut x).1 ∧
    Context.sameConstants c (c.to_montgomery_mut x).1 ∧
    Context.sameConstants c (c.from_montgomery_mut x).1 ∧
    Context.sameConstants c ((c.invert_mut x).getD (c, 0)).1 := by
  refine ⟨⟨rfl, rfl, rfl, rfl, rfl, rfl, rfl⟩, ⟨rfl, rfl, rfl, rfl, rfl, rfl, rfl⟩,
    ⟨rfl, rfl, rfl, rfl, rfl, rfl, rfl⟩, ⟨rfl, rfl, rfl, rfl, rfl, rfl, rfl⟩,
    ⟨rfl, rfl, rfl, rfl, rfl, rfl, rfl⟩, ⟨rfl, rfl, rfl, rfl, rfl, rfl, rfl⟩,
    ⟨rfl, rfl, rfl, rfl, rfl, rfl, rfl⟩, ⟨rfl, rfl, rfl, rfl, rfl, rfl, rfl⟩,
    ⟨rfl, rfl, rfl, rfl, rfl, rfl, rfl⟩, ⟨rfl, rfl, rfl, rfl, rfl, rfl, rfl⟩, ?_⟩
  unfold Context.invert_mut
  split
  · exact ⟨rfl, rfl, rfl, rfl, rfl, rfl, rfl⟩
  · exact ⟨rfl, rfl, rfl, rfl, rfl, rfl, rfl⟩

/-! ### Agreement of the ℕ mirror with the signed embedding -/

theorem forceNat_eq {α : Type} (a : ℕ) (f : ℕ → α) : forceNat a f = f a := by
  unfold forceNat
  split <;> rfl

theorem new_ninv_pos (n : ℤ) : 0 < (Context.new n).n_inv := by
  have hdef : (Context.new n).n_inv =
      ((2 ^ (Context.new n).r_bit_length : ℕ) : ℤ) -
        henselLoopFuel n (Context.new n).r_bit_length (Context.new n).r_bit_length 3 n %
          ((2 ^ (Context.new n).r_bit_length : ℕ) : ℤ) := rfl
  have hR : (0 : ℤ) < ((2 ^ (Context.new n).r_bit_length : ℕ) : ℤ) := by
    exact_mod_cast pow_pos (by norm_num : (0 : ℕ) < 2) _
  have hm := Int.emod_lt_of_pos
    (henselLoopFuel n (Context.new n).r_bit_length (Context.new n).r_bit_length 3 n) hR
  omega

theorem natReduce_cast (rb : ℕ) (ninv n x : ℕ) :
    ((natReduce (2 ^ rb) ninv n x : ℕ) : ℤ) = (reduceAux rb (↑ninv) (↑n) (↑x)).1 := by
  rw [reduceAux_def]
  unfold natReduce
  simp only
  rw [Int.fdiv_eq_ediv _ (by positivity), Int.ofNat_ediv]
  push_cast [Int.ofNat_emod]
  rfl

theorem reduceV_natCast (n : ℤ) (hn : 1 < n) (x : ℕ) :
    ((natReduce (2 ^ (Context.new n).r_bit_length) (Context.new n).n_inv.toNat n.toNat x :
        ℕ) : ℤ) = (Context.new n).reduceV ↑x := by
  rw [natReduce_cast, reduceV_eq]
  rw [Int.toNat_of_nonneg (le_of_lt (new_ninv_pos n)),
    Int.toNat_of_nonneg (show (0 : ℤ) ≤ n by omega)]
  rfl

theorem cast_two_mul_toNat (n : ℤ) (hn : 1 < n) : ((2 * n.toNat : ℕ) : ℤ) = 2 * n := by
  push_cast
  rw [Int.toNat_of_nonneg (show (0 : ℤ) ≤ n by omega)]

theorem natMul_corr (n : ℤ) (hn : 1 < n) (a b : ℕ) :
    ((natMul (2 ^ (Context.new n).r_bit_length) (Context.new n).n_inv.toNat n.toNat a b :
        ℕ) : ℤ) = (Context.new n).mulV ↑a ↑b := by
  unfold natMul
  rw [reduceV_natCast n hn]
  have : ((a * b : ℕ) : ℤ) = (a : ℤ) * b := by push_cast; ring
  rw [this]
  rfl

theorem natAdd_corr (n : ℤ) (hn : 1 < n) (a b : ℕ) :
    ((natAdd (2 * n.toNat) a b : ℕ) : ℤ) = (Context.new n).addV ↑a ↑b := by
  have hzdef : (Context.new n).addV ↑a ↑b =
      if 2 * n ≤ (a : ℤ) + b then (a : ℤ) + b - 2 * n else (a : ℤ) + b := rfl
  have h2n := cast_two_mul_toNat n hn
  unfold natAdd
  rcases le_or_lt (2 * n.toNat) (a + b) with h | h
  · rw [if_pos h, hzdef, if_pos (by rw [← h2n]; exact_mod_cast h)]
    rw [Nat.cast_sub h, h2n]
    push_cast
    ring
  · rw [if_neg (by omega), hzdef,
      if_neg (by rw [← h2n]; exact_mod_cast not_le.mpr h)]
    push_cast
    ring

theorem natSub_corr (n : ℤ) (hn : 1 < n) (a b : ℕ) (hb : (b : ℤ) ≤ 2 * n) :
    ((natSub (2 * n.toNat) a b : ℕ) : ℤ) = (Context.new n).subV ↑a ↑b := by
  have hzdef : (Context.new n).subV ↑a ↑b =
      if ((a : ℤ) - b) < 0 then (a : ℤ) - b + 2 * n else (a : ℤ) - b := rfl
  have h2n := cast_two_mul_toNat n hn
  have hb2 : b ≤ 2 * n.toNat := by rw [← h2n] at hb; exact_mod_cast hb
  unfold natSub
  rcases lt_or_le a b with h | h
  · rw [if_pos h, hzdef, if_pos (by push_cast; omega)]
    rw [Nat.cast_sub (by omega), Nat.cast_add, h2n]
    push_cast
    ring
  · rw [if_neg (by omega), hzdef, if_neg (by push_cast; omega)]
    rw [Nat.cast_sub h]

theorem new_addV_mem (n : ℤ) (hn : 1 < n) (a b : ℤ) (ha0 : 0 ≤ a) (ha1 : a < 2 * n)
    (hb0 : 0 ≤ b) (hb1 : b < 2 * n) :
    0 ≤ (Context.new n).addV a b ∧ (Context.new n).addV a b < 2 * n := by
  have hzdef : (Context.new n).addV a b =
      if 2 * n ≤ a + b then a + b - 2 * n else a + b := rfl
  rw [hzdef]
  split <;> omega

theorem new_subV_mem (n : ℤ) (hn : 1 < n) (a b : ℤ) (ha0 : 0 ≤ a) (ha1 : a < 2 * n)
    (hb0 : 0 ≤ b) (hb1 : b < 2 * n) :
    0 ≤ (Context.new n).subV a b ∧ (Context.new n).subV a b < 2 * n := by
  have hzdef : (Context.new n).subV a b =
      if (a - b) < 0 then a - b + 2 * n else a - b := rfl
  rw [hzdef]
  split <;> omega

theorem new_rmod_lt (n : ℤ) (hn : 1 < n) : (Context.new n).r_mod_n < 2 * n := by
  have hR := new_R_gt n hn
  obtain ⟨h0, h1⟩ := new_rsq_bounds n hn
  have h2 := new_reduceV_lt n hn (Context.new n).r_squared_mod_n 1 (by omega)
  rw [new_rmod_eq]
  omega

theorem gcd_natCast (a b : ℕ) : Int.gcd (↑a) (↑b) = Nat.gcd a b := by
  simp [Int.gcd]

theorem natRhoStep_corr (n : ℤ) (hn : 1 < n) (cm y : ℕ) :
    ((natRhoStep (2 ^ (Context.new n).r_bit_length) (Context.new n).n_inv.toNat n.toNat
        (2 * n.toNat) cm y : ℕ) : ℤ) = rhoStep (Context.new n) ↑cm ↑y := by
  unfold natRhoStep rhoStep
  rw [natAdd_corr n hn]
  have h1 : ((natReduce (2 ^ (Context.new n).r_bit_length) (Context.new n).n_inv.toNat
      n.toNat (y * y) : ℕ) : ℤ) = (Context.new n).squareV ↑y := by
    rw [reduceV_natCast n hn]
    have : ((y * y : ℕ) : ℤ) = (y : ℤ) * y := by push_cast; ring
    rw [this]
    rfl
  rw [h1]

theorem new_rhoStep_mem (n : ℤ) (hodd : Odd n) (hn : 1 < n) (cm y : ℤ)
    (hcm0 : 0 ≤ cm) (hcm : cm < 2 * n) (hy0 : 0 ≤ y) (hy : y < 2 * n) :
    0 ≤ rhoStep (Context.new n) cm y ∧ rhoStep (Context.new n) cm y < 2 * n := by
  unfold rhoStep
  have hsq : (Context.new n).squareV y = (Context.new n).mulV y y := rfl
  obtain ⟨hs0, hs1, _⟩ := new_mulV_spec n hodd hn y y hy0 hy hy0 hy
  rw [hsq]
  exact new_addV_mem n hn _ _ hs0 hs1 hcm0 hcm

theorem natRhoBatch_corr (n : ℤ) (hodd : Odd n) (hn : 1 < n) (cm x : ℕ)
    (hcm : (cm : ℤ) < 2 * n) (hx : (x : ℤ) < 2 * n) :
    ∀ (k y g : ℕ), (y : ℤ) < 2 * n → (g : ℤ) < 2 * n →
      (((natRhoBatch (2 ^ (Context.new n).r_bit_length) (Context.new n).n_inv.toNat n.toNat
            (2 * n.toNat) cm x k (y, g)).1 : ℤ),
        ((natRhoBatch (2 ^ (Context.new n).r_bit_length) (Context.new n).n_inv.toNat n.toNat
            (2 * n.toNat) cm x k (y, g)).2 : ℤ)) =
          rhoBatch (Context.new n) ↑cm ↑x k (↑y, ↑g) ∧
      ((natRhoBatch (2 ^ (Context.new n).r_bit_length) (Context.new n).n_inv.toNat n.toNat
          (2 * n.toNat) cm x k (y, g)).1 : ℤ) < 2 * n ∧
      ((natRhoBatch (2 ^ (Context.new n).r_bit_length) (Context.new n).n_inv.toNat n.toNat
          (2 * n.toNat) cm x k (y, g)).2 : ℤ) < 2 * n := by
  intro k
  induction k with
  | zero =>
    intro y g hy hg
    exact ⟨rfl, hy, hg⟩
  | succ k ih =>
    intro y g hy hg
    simp only [natRhoBatch, rhoBatch, forceNat_eq, forceInt_eq]
    have hstep := natRhoStep_corr n hn cm y
    obtain ⟨hs0, hs1⟩ := new_rhoStep_mem n hodd hn ↑cm ↑y (by positivity) hcm
      (by positivity) hy
    have hdcorr := natSub_corr n hn x
      (natRhoStep (2 ^ (Context.new n).r_bit_length) (Context.new n).n_inv.toNat n.toNat
        (2 * n.toNat) cm y) (by rw [hstep]; omega)
    rw [hstep] at hdcorr
    obtain ⟨hd0, hd1⟩ := new_subV_mem n hn ↑x (rhoStep (Context.new n) ↑cm ↑y)
      (by positivity) hx hs0 hs1
    have hgcorr := natMul_corr n hn g
      (natSub (2 * n.toNat) x
        (natRhoStep (2 ^ (Context.new n).r_bit_length) (Context.new n).n_inv.toNat n.toNat
          (2 * n.toNat) cm y))
    rw [hdcorr] at hgcorr
    obtain ⟨hg0', hg1', _⟩ := new_mulV_spec n hodd hn ↑g
      ((Context.new n).subV ↑x (rhoStep (Context.new n) ↑cm ↑y)) (by positivity) hg hd0 hd1
    have happ := ih
      (natRhoStep (2 ^ (Context.new n).r_bit_length) (Context.new n).n_inv.toNat n.toNat
        (2 * n.toNat) cm y)
      (natMul (2 ^ (Context.new n).r_bit_length) (Context.new n).n_inv.toNat n.toNat g
        (natSub (2 * n.toNat) x
          (natRhoStep (2 ^ (Context.new n).r_bit_length) (Context.new n).n_inv.toNat n.toNat
            (2 * n.toNat) cm y)))
      (by rw [hstep]; exact hs1) (by rw [hgcorr]; exact hg1')
    rw [hstep, hgcorr] at happ
    exact happ

theorem natRhoBatchLoop_corr (n : ℤ) (hodd : Odd n) (hn : 1 < n) (cm x : ℕ)
    (hcm : (cm : ℤ) < 2 * n) (hx : (x : ℤ) < 2 * n) :
    ∀ (fuel k r : ℕ) (y ys g : ℕ), (y : ℤ) < 2 * n → (ys : ℤ) < 2 * n → (g : ℤ) < 2 * n →
      (((natRhoBatchLoop (2 ^ (Context.new n).r_bit_length) (Context.new n).n_inv.toNat
            n.toNat (2 * n.toNat) cm (Context.new n).r_mod_n.toNat x fuel k r
            (y, ys, g)).1 : ℤ),
        ((natRhoBatchLoop (2 ^ (Context.new n).r_bit_length) (Context.new n).n_inv.toNat
            n.toNat (2 * n.toNat) cm (Context.new n).r_mod_n.toNat x fuel k r
            (y, ys, g)).2.1 : ℤ),
        ((natRhoBatchLoop (2 ^ (Context.new n).r_bit_length) (Context.new n).n_inv.toNat
            n.toNat (2 * n.toNat) cm (Context.new n).r_mod_n.toNat x fuel k r
            (y, ys, g)).2.2 : ℤ)) =
          rhoBatchLoop (Context.new n) n ↑cm ↑x fuel k r (↑y, ↑ys, ↑g) ∧
      ((natRhoBatchLoop (2 ^ (Context.new n).r_bit_length) (Context.new n).n_inv.toNat
          n.toNat (2 * n.toNat) cm (Context.new n).r_mod_n.toNat x fuel k r
          (y, ys, g)).1 : ℤ) < 2 * n ∧
      ((natRhoBatchLoop (2 ^ (Context.new n).r_bit_length) (Context.new n).n_inv.toNat
          n.toNat (2 * n.toNat) cm (Context.new n).r_mod_n.toNat x fuel k r
          (y, ys, g)).2.1 : ℤ) < 2 * n ∧
      ((natRhoBatchLoop (2 ^ (Context.new n).r_bit_length) (Context.new n).n_inv.toNat
          n.toNat (2 * n.toNat) cm (Context.new n).r_mod_n.toNat x fuel k r
          (y, ys, g)).2.2 : ℤ) < 2 * n := by
  intro fuel
  induction fuel with
  | zero =>
    intro k r y ys g hy hys hg
    exact ⟨rfl, hy, hys, hg⟩
  | succ fuel ih =>
    intro k r y ys g hy hys hg
    have hrmod0 := new_rmod_nonneg n hn
    have hrmod1 := new_rmod_lt n hn
    have hrmodc : (((Context.new n).r_mod_n.toNat : ℕ) : ℤ) = (Context.new n).r_mod_n :=
      Int.toNat_of_nonneg hrmod0
    rw [natRhoBatchLoop, rhoBatchLoop]
    dsimp only
    by_cases hcond : k < r ∧ (g : ℤ) < 2
    · have hcondN : k < r ∧ g < 2 := ⟨hcond.1, by exact_mod_cast hcond.2⟩
      rw [if_pos hcondN, if_pos hcond]
      obtain ⟨hb, hb1, hb2⟩ := natRhoBatch_corr n hodd hn cm x hcm hx
        (min 4096 (r - k)) y (Context.new n).r_mod_n.toNat hy (by rw [hrmodc]; omega)
      rw [hrmodc] at hb
      have hgcd : ((Nat.gcd (natRhoBatch (2 ^ (Context.new n).r_bit_length)
          (Context.new n).n_inv.toNat n.toNat (2 * n.toNat) cm x (min 4096 (r - k))
          (y, (Context.new n).r_mod_n.toNat)).2 n.toNat : ℕ) : ℤ) =
          ((Int.gcd ((natRhoBatch (2 ^ (Context.new n).r_bit_length)
            (Context.new n).n_inv.toNat n.toNat (2 * n.toNat) cm x (min 4096 (r - k))
            (y, (Context.new n).r_mod_n.toNat)).2 : ℤ) n : ℕ) : ℤ) := by
        have h1 : Int.gcd ((((natRhoBatch (2 ^ (Context.new n).r_bit_length)
            (Context.new n).n_inv.toNat n.toNat (2 * n.toNat) cm x (min 4096 (r - k))
            (y, (Context.new n).r_mod_n.toNat)).2 : ℕ) : ℤ)) n =
            Nat.gcd (natRhoBatch (2 ^ (Context.new n).r_bit_length)
              (Context.new n).n_inv.toNat n.toNat (2 * n.toNat) cm x (min 4096 (r - k))
              (y, (Context.new n).r_mod_n.toNat)).2 n.toNat := by
          have h2 : ((((natRhoBatch (2 ^ (Context.new n).r_bit_length)
              (Context.new n).n_inv.toNat n.toNat (2 * n.toNat) cm x (min 4096 (r - k))
              (y, (Context.new n).r_mod_n.toNat)).2 : ℕ) : ℤ)).natAbs =
              (natRhoBatch (2 ^ (Context.new n).r_bit_length)
                (Context.new n).n_inv.toNat n.toNat (2 * n.toNat) cm x (min 4096 (r - k))
                (y, (Context.new n).r_mod_n.toNat)).2 := Int.natAbs_ofNat _
          have h3 : n.natAbs = n.toNat := by omega
          show Nat.gcd _ n.natAbs = _
          rw [h2, h3]
        rw [h1]
      have hgcdle : Nat.gcd (natRhoBatch (2 ^ (Context.new n).r_bit_length)
          (Context.new n).n_inv.toNat n.toNat (2 * n.toNat) cm x (min 4096 (r - k))
          (y, (Context.new n).r_mod_n.toNat)).2 n.toNat ≤ n.toNat :=
        Nat.le_of_dvd (by omega) (Nat.gcd_dvd_right _ _)
      have happ := ih (k + 4096) r
        (natRhoBatch (2 ^ (Context.new n).r_bit_length) (Context.new n).n_inv.toNat n.toNat
          (2 * n.toNat) cm x (min 4096 (r - k)) (y, (Context.new n).r_mod_n.toNat)).1
        y
        (Nat.gcd (natRhoBatch (2 ^ (Context.new n).r_bit_length) (Context.new n).n_inv.toNat
          n.toNat (2 * n.toNat) cm x (min 4096 (r - k))
          (y, (Context.new n).r_mod_n.toNat)).2 n.toNat)
        hb1 hy (by
          have : ((n.toNat : ℕ) : ℤ) = n := Int.toNat_of_nonneg (by omega)
          have h2 := hgcdle
          omega)
      have hcomp : ((natRhoBatch (2 ^ (Context.new n).r_bit_length)
          (Context.new n).n_inv.toNat n.toNat (2 * n.toNat) cm x (min 4096 (r - k))
          (y, (Context.new n).r_mod_n.toNat)).1 : ℤ) =
          (rhoBatch (Context.new n) ↑cm ↑x (min 4096 (r - k))
            (↑y, (Context.new n).r_mod_n)).1 := congrArg Prod.fst hb
      have hcomp2 : ((natRhoBatch (2 ^ (Context.new n).r_bit_length)
          (Context.new n).n_inv.toNat n.toNat (2 * n.toNat) cm x (min 4096 (r - k))
          (y, (Context.new n).r_mod_n.toNat)).2 : ℤ) =
          (rhoBatch (Context.new n) ↑cm ↑x (min 4096 (r - k))
            (↑y, (Context.new n).r_mod_n)).2 := congrArg Prod.snd hb
      rw [hgcd, hcomp2] at happ
      rw [hcomp] at happ
      exact happ
    · have hcondN : ¬ (k < r ∧ g < 2) := by
        intro hc
        exact hcond ⟨hc.1, by exact_mod_cast hc.2⟩
      rw [if_neg hcondN, if_neg hcond]
      exact ⟨rfl, hy, hys, hg⟩

theorem gcd_toNat_cast (n : ℤ) (hn : 1 < n) (a : ℕ) :
    Int.gcd (a : ℤ) n = Nat.gcd a n.toNat := by
  have h2 : ((a : ℤ)).natAbs = a := Int.natAbs_ofNat a
  have h3 : n.natAbs = n.toNat := by omega
  show Nat.gcd ((a : ℤ)).natAbs n.natAbs = _
  rw [h2, h3]

theorem natRhoAdvance_corr (n : ℤ) (hodd : Odd n) (hn : 1 < n) (cm : ℕ)
    (hcm : (cm : ℤ) < 2 * n) :
    ∀ (k y : ℕ), (y : ℤ) < 2 * n →
      ((natRhoAdvance (2 ^ (Context.new n).r_bit_length) (Context.new n).n_inv.toNat n.toNat
          (2 * n.toNat) cm k y : ℕ) : ℤ) = rhoAdvance (Context.new n) ↑cm k ↑y ∧
      ((natRhoAdvance (2 ^ (Context.new n).r_bit_length) (Context.new n).n_inv.toNat n.toNat
          (2 * n.toNat) cm k y : ℕ) : ℤ) < 2 * n := by
  intro k
  induction k with
  | zero =>
    intro y hy
    exact ⟨rfl, hy⟩
  | succ k ih =>
    intro y hy
    simp only [natRhoAdvance, rhoAdvance, forceNat_eq, forceInt_eq]
    have hstep := natRhoStep_corr n hn cm y
    obtain ⟨hs0, hs1⟩ := new_rhoStep_mem n hodd hn ↑cm ↑y (by positivity) hcm
      (by positivity) hy
    have happ := ih
      (natRhoStep (2 ^ (Context.new n).r_bit_length) (Context.new n).n_inv.toNat n.toNat
        (2 * n.toNat) cm y) (by rw [hstep]; exact hs1)
    rw [hstep] at happ
    exact happ

theorem natRhoOuter_corr (n : ℤ) (hodd : Odd n) (hn : 1 < n) (cm : ℕ)
    (hcm : (cm : ℤ) < 2 * n) :
    ∀ (fuel : ℕ) (st : NatRhoState), (st.x : ℤ) < 2 * n → (st.y : ℤ) < 2 * n →
      (st.ys : ℤ) < 2 * n → (st.g : ℤ) < 2 * n →
      castRhoState (natRhoOuter (2 ^ (Context.new n).r_bit_length)
          (Context.new n).n_inv.toNat n.toNat (2 * n.toNat) cm
          (Context.new n).r_mod_n.toNat fuel st) =
        rhoOuter (Context.new n) n ↑cm fuel (castRhoState st) ∧
      ((natRhoOuter (2 ^ (Context.new n).r_bit_length) (Context.new n).n_inv.toNat n.toNat
          (2 * n.toNat) cm (Context.new n).r_mod_n.toNat fuel st).x : ℤ) < 2 * n ∧
      ((natRhoOuter (2 ^ (Context.new n).r_bit_length) (Context.new n).n_inv.toNat n.toNat
          (2 * n.toNat) cm (Context.new n).r_mod_n.toNat fuel st).y : ℤ) < 2 * n ∧
      ((natRhoOuter (2 ^ (Context.new n).r_bit_length) (Context.new n).n_inv.toNat n.toNat
          (2 * n.toNat) cm (Context.new n).r_mod_n.toNat fuel st).ys : ℤ) < 2 * n ∧
      ((natRhoOuter (2 ^ (Context.new n).r_bit_length) (Context.new n).n_inv.toNat n.toNat
          (2 * n.toNat) cm (Context.new n).r_mod_n.toNat fuel st).g : ℤ) < 2 * n := by
  intro fuel
  induction fuel with
  | zero =>
    intro st hx hy hys hg
    exact ⟨rfl, hx, hy, hys, hg⟩
  | succ fuel ih =>
    intro st hx hy hys hg
    rw [natRhoOuter, rhoOuter]
    dsimp only [castRhoState]
    obtain ⟨hadv, hadvlt⟩ := natRhoAdvance_corr n hodd hn cm hcm st.r st.y hy
    obtain ⟨hbl, hb1, hb2, hb3⟩ := natRhoBatchLoop_corr n hodd hn cm st.y hcm hy 64 0 st.r
      (natRhoAdvance (2 ^ (Context.new n).r_bit_length) (Context.new n).n_inv.toNat n.toNat
        (2 * n.toNat) cm st.r st.y) st.ys st.g hadvlt hys hg
    rw [hadv] at hbl
    set pN := natRhoBatchLoop (2 ^ (Context.new n).r_bit_length)
      (Context.new n).n_inv.toNat n.toNat (2 * n.toNat) cm (Context.new n).r_mod_n.toNat
      st.y 64 0 st.r
      (natRhoAdvance (2 ^ (Context.new n).r_bit_length) (Context.new n).n_inv.toNat n.toNat
        (2 * n.toNat) cm st.r st.y, st.ys, st.g) with hpN
    set pZ := rhoBatchLoop (Context.new n) n (↑cm) (↑st.y) 64 0 st.r
      (rhoAdvance (Context.new n) (↑cm) st.r ↑st.y, ↑st.ys, ↑st.g) with hpZ
    have h1 : ((pN.1 : ℕ) : ℤ) = pZ.1 := congrArg Prod.fst hbl
    have h2 : ((pN.2.1 : ℕ) : ℤ) = pZ.2.1 := congrArg Prod.fst (congrArg Prod.snd hbl)
    have h3 : ((pN.2.2 : ℕ) : ℤ) = pZ.2.2 := congrArg Prod.snd (congrArg Prod.snd hbl)
    by_cases hcond : 1 < pN.2.2
    · have hcondZ : (1 : ℤ) < pZ.2.2 := by rw [← h3]; exact_mod_cast hcond
      rw [if_pos hcond, if_pos hcondZ]
      refine ⟨?_, hy, hb1, hb2, hb3⟩
      show (⟨st.r, ↑st.y, ↑pN.1, ↑pN.2.1, ↑pN.2.2⟩ : RhoState) = _
      rw [h1, h2, h3]
    · have hcondZ : ¬ ((1 : ℤ) < pZ.2.2) := by rw [← h3]; exact_mod_cast hcond
      rw [if_neg hcond, if_neg hcondZ]
      have happ := ih ⟨2 * st.r, st.y, pN.1, pN.2.1, pN.2.2⟩ hy hb1 hb2 hb3
      rw [show castRhoState ⟨2 * st.r, st.y, pN.1, pN.2.1, pN.2.2⟩ =
            (⟨2 * st.r, ↑st.y, ↑pN.1, ↑pN.2.1, ↑pN.2.2⟩ : RhoState) from rfl,
          h1, h2, h3] at happ
      exact happ

theorem natRhoFallback_corr (n : ℤ) (hodd : Odd n) (hn : 1 < n) (cm x : ℕ)
    (hcm : (cm : ℤ) < 2 * n) (hx : (x : ℤ) < 2 * n) :
    ∀ (fuel : ℕ) (ys g : ℕ), (ys : ℤ) < 2 * n →
      Sum.map (fun m : ℕ => (m : ℤ)) (fun m : ℕ => (m : ℤ))
          (natRhoFallback (2 ^ (Context.new n).r_bit_length) (Context.new n).n_inv.toNat
            n.toNat (2 * n.toNat) cm (Context.new n).r_mod_n.toNat x fuel ys g) =
        rhoFallback (Context.new n) n ↑cm ↑x fuel ↑ys ↑g := by
  intro fuel
  induction fuel with
  | zero =>
    intro ys g hys
    rfl
  | succ fuel ih =>
    intro ys g hys
    rw [natRhoFallback, rhoFallback]
    have hrmod0 := new_rmod_nonneg n hn
    have hrmod1 := new_rmod_lt n hn
    have hrmodc : (((Context.new n).r_mod_n.toNat : ℕ) : ℤ) = (Context.new n).r_mod_n :=
      Int.toNat_of_nonneg hrmod0
    obtain ⟨hb, hb1, hb2⟩ := natRhoBatch_corr n hodd hn cm x hcm hx 128 ys
      (Context.new n).r_mod_n.toNat hys (by rw [hrmodc]; omega)
    rw [hrmodc] at hb
    set pN := natRhoBatch (2 ^ (Context.new n).r_bit_length) (Context.new n).n_inv.toNat
      n.toNat (2 * n.toNat) cm x 128 (ys, (Context.new n).r_mod_n.toNat) with hpN
    set pZ := rhoBatch (Context.new n) (↑cm) (↑x) 128
      (↑ys, (Context.new n).r_mod_n) with hpZ
    have h1c : ((pN.1 : ℕ) : ℤ) = pZ.1 := congrArg Prod.fst hb
    have h2c : ((pN.2 : ℕ) : ℤ) = pZ.2 := congrArg Prod.snd hb
    have hgc : ((Nat.gcd pN.2 n.toNat : ℕ) : ℤ) = ((Int.gcd pZ.2 n : ℕ) : ℤ) := by
      rw [← h2c, gcd_toNat_cast n hn]
    have hnn : ((n.toNat : ℕ) : ℤ) = n := Int.toNat_of_nonneg (by omega)
    by_cases hcond : 1 < Nat.gcd pN.2 n.toNat ∧ Nat.gcd pN.2 n.toNat < n.toNat
    · have hcondZ : 1 < ((Int.gcd pZ.2 n : ℕ) : ℤ) ∧ ((Int.gcd pZ.2 n : ℕ) : ℤ) < n := by
        obtain ⟨hc1, hc2⟩ := hcond
        constructor
        · rw [← hgc]; exact_mod_cast hc1
        · rw [← hgc]; omega
      rw [if_pos hcond, if_pos hcondZ]
      show Sum.inl ((Nat.gcd pN.2 n.toNat : ℕ) : ℤ) = Sum.inl ((Int.gcd pZ.2 n : ℕ) : ℤ)
      rw [hgc]
    · have hcondZ : ¬ (1 < ((Int.gcd pZ.2 n : ℕ) : ℤ) ∧ ((Int.gcd pZ.2 n : ℕ) : ℤ) < n) := by
        intro hc
        apply hcond
        obtain ⟨hc1, hc2⟩ := hc
        rw [← hgc] at hc1 hc2
        constructor
        · exact_mod_cast hc1
        · omega
      rw [if_neg hcond, if_neg hcondZ]
      have happ := ih pN.1 (Nat.gcd pN.2 n.toNat) hb1
      rw [h1c, hgc] at happ
      exact happ

theorem natRhoDecide_corr (n : ℤ) (hodd : Odd n) (hn : 1 < n) (cm : ℕ)
    (hcm : (cm : ℤ) < 2 * n) (st : NatRhoState) (hx : (st.x : ℤ) < 2 * n)
    (hys : (st.ys : ℤ) < 2 * n) :
    Option.map (fun m : ℕ => (m : ℤ))
        (natRhoDecide (2 ^ (Context.new n).r_bit_length) (Context.new n).n_inv.toNat n.toNat
          (2 * n.toNat) cm (Context.new n).r_mod_n.toNat st) =
      rhoDecide (Context.new n) n ↑cm (castRhoState st) := by
  rw [natRhoDecide, rhoDecide]
  dsimp only [castRhoState]
  by_cases h1 : st.g = 1
  · rw [if_pos h1, if_pos (show (st.g : ℤ) = 1 by exact_mod_cast h1)]
    rfl
  · rw [if_neg h1, if_neg (show ¬ ((st.g : ℤ) = 1) by exact_mod_cast h1)]
    by_cases h2 : st.g = n.toNat
    · have h2Z : (st.g : ℤ) = n := by rw [h2]; exact Int.toNat_of_nonneg (by omega)
      rw [if_pos h2, if_pos h2Z]
      have hf := natRhoFallback_corr n hodd hn cm st.x hcm hx 128 st.ys st.g hys
      cases hN : natRhoFallback (2 ^ (Context.new n).r_bit_length)
          (Context.new n).n_inv.toNat n.toNat (2 * n.toNat) cm
          (Context.new n).r_mod_n.toNat st.x 128 st.ys st.g with
      | inl a =>
        rw [hN] at hf
        rw [← hf]
        rfl
      | inr b =>
        rw [hN] at hf
        rw [← hf]
        show Option.map _ (if b = n.toNat then none else some b) =
          if ((b : ℕ) : ℤ) = n then none else some ((b : ℕ) : ℤ)
        by_cases h3 : b = n.toNat
        · rw [if_pos h3,
            if_pos (show ((b : ℕ) : ℤ) = n by rw [h3]; exact Int.toNat_of_nonneg (by omega))]
          rfl
        · rw [if_neg h3, if_neg (show ¬ (((b : ℕ) : ℤ) = n) from fun hh => h3 (by omega))]
          rfl
    · have h2Z : ¬ ((st.g : ℤ) = n) := fun hh => h2 (by omega)
      rw [if_neg h2, if_neg h2Z]
      show Option.map _ (if st.g = n.toNat then none else some st.g) =
        if (st.g : ℤ) = n then none else some ((st.g : ℕ) : ℤ)
      rw [if_neg h2, if_neg h2Z]
      rfl

theorem pollard_rho_brent_eq_natPollard (n : ℤ) (hodd : Odd n) (hn : 1 < n)
    (cIn yIn : ℕ) (hc : (cIn : ℤ) < 2 * n) (hy : (yIn : ℤ) < 2 * n) :
    pollard_rho_brent n ↑cIn ↑yIn =
      Option.map (fun m : ℕ => (m : ℤ)) (natPollard n cIn yIn) := by
  have hrsq0 := (new_rsq_bounds n hn).1
  have hcm : ((natReduce (2 ^ (Context.new n).r_bit_length) (Context.new n).n_inv.toNat
      n.toNat (cIn * (Context.new n).r_squared_mod_n.toNat) : ℕ) : ℤ) =
      (Context.new n).toMontV ↑cIn := by
    rw [reduceV_natCast n hn]
    have hcast : ((cIn * (Context.new n).r_squared_mod_n.toNat : ℕ) : ℤ) =
        (cIn : ℤ) * (Context.new n).r_squared_mod_n := by
      push_cast
      rw [Int.toNat_of_nonneg hrsq0]
    rw [hcast]
    rfl
  have hym : ((natReduce (2 ^ (Context.new n).r_bit_length) (Context.new n).n_inv.toNat
      n.toNat (yIn * (Context.new n).r_squared_mod_n.toNat) : ℕ) : ℤ) =
      (Context.new n).toMontV ↑yIn := by
    rw [reduceV_natCast n hn]
    have hcast : ((yIn * (Context.new n).r_squared_mod_n.toNat : ℕ) : ℤ) =
        (yIn : ℤ) * (Context.new n).r_squared_mod_n := by
      push_cast
      rw [Int.toNat_of_nonneg hrsq0]
    rw [hcast]
    rfl
  obtain ⟨hcm0, hcm1, _⟩ := new_toMontV_spec n hodd hn ↑cIn (by positivity) hc
  obtain ⟨hym0, hym1, _⟩ := new_toMontV_spec n hodd hn ↑yIn (by positivity) hy
  have hcmN : ((natReduce (2 ^ (Context.new n).r_bit_length) (Context.new n).n_inv.toNat
      n.toNat (cIn * (Context.new n).r_squared_mod_n.toNat) : ℕ) : ℤ) < 2 * n := by
    rw [hcm]; exact hcm1
  have hymN : ((natReduce (2 ^ (Context.new n).r_bit_length) (Context.new n).n_inv.toNat
      n.toNat (yIn * (Context.new n).r_squared_mod_n.toNat) : ℕ) : ℤ) < 2 * n := by
    rw [hym]; exact hym1
  obtain ⟨houter, ho1, ho2, ho3, ho4⟩ := natRhoOuter_corr n hodd hn
    (natReduce (2 ^ (Context.new n).r_bit_length) (Context.new n).n_inv.toNat
      n.toNat (cIn * (Context.new n).r_squared_mod_n.toNat)) hcmN 19
    ⟨1, 0,
      natReduce (2 ^ (Context.new n).r_bit_length) (Context.new n).n_inv.toNat
        n.toNat (yIn * (Context.new n).r_squared_mod_n.toNat), 0, 0⟩
    (by push_cast; omega) hymN (by push_cast; omega) (by push_cast; omega)
  have hdec := natRhoDecide_corr n hodd hn
    (natReduce (2 ^ (Context.new n).r_bit_length) (Context.new n).n_inv.toNat
      n.toNat (cIn * (Context.new n).r_squared_mod_n.toNat)) hcmN
    (natRhoOuter (2 ^ (Context.new n).r_bit_length) (Context.new n).n_inv.toNat n.toNat
      (2 * n.toNat)
      (natReduce (2 ^ (Context.new n).r_bit_length) (Context.new n).n_inv.toNat
        n.toNat (cIn * (Context.new n).r_squared_mod_n.toNat))
      (Context.new n).r_mod_n.toNat 19
      ⟨1, 0,
        natReduce (2 ^ (Context.new n).r_bit_length) (Context.new n).n_inv.toNat
          n.toNat (yIn * (Context.new n).r_squared_mod_n.toNat), 0, 0⟩) ho1 ho3
  rw [houter] at hdec
  rw [pollard_rho_brent, natPollard]
  rw [← hcm, ← hym]
  exact hdec.symm

theorem rhoBatchLoop_g_inv (ctx : Context) (n cm x : ℤ) :
    ∀ (fuel k r : ℕ) (s : ℤ × ℤ × ℤ),
      (rhoBatchLoop ctx n cm x fuel k r s).2.2 = s.2.2 ∨
      ∃ a, (rhoBatchLoop ctx n cm x fuel k r s).2.2 = ((Int.gcd a n : ℕ) : ℤ) := by
  intro fuel
  induction fuel with
  | zero =>
    intro k r s
    exact Or.inl rfl
  | succ fuel ih =>
    intro k r s
    rw [rhoBatchLoop]
    by_cases hcond : k < r ∧ s.2.2 < 2
    · rw [if_pos hcond]
      rcases ih (k + 4096) r
          ((rhoBatch ctx cm x (min 4096 (r - k)) (s.1, ctx.r_mod_n)).1, s.1,
            ((Int.gcd (rhoBatch ctx cm x (min 4096 (r - k)) (s.1, ctx.r_mod_n)).2 n : ℕ) :
              ℤ)) with h | h
      · right
        rw [h]
        exact ⟨(rhoBatch ctx cm x (min 4096 (r - k)) (s.1, ctx.r_mod_n)).2, rfl⟩
      · exact Or.inr h
    · rw [if_neg hcond]
      exact Or.inl rfl

theorem rhoBatchLoop_g_first (ctx : Context) (n cm x : ℤ) (fuel k r : ℕ) (s : ℤ × ℤ × ℤ)
    (hk : k < r) (hg : s.2.2 < 2) :
    ∃ a, (rhoBatchLoop ctx n cm x (fuel + 1) k r s).2.2 = ((Int.gcd a n : ℕ) : ℤ) := by
  rw [rhoBatchLoop, if_pos ⟨hk, hg⟩]
  rcases rhoBatchLoop_g_inv ctx n cm x fuel (k + 4096) r
      ((rhoBatch ctx cm x (min 4096 (r - k)) (s.1, ctx.r_mod_n)).1, s.1,
        ((Int.gcd (rhoBatch ctx cm x (min 4096 (r - k)) (s.1, ctx.r_mod_n)).2 n : ℕ) :
          ℤ)) with h | h
  · rw [h]
    exact ⟨(rhoBatch ctx cm x (min 4096 (r - k)) (s.1, ctx.r_mod_n)).2, rfl⟩
  · exact h

theorem rhoOuter_g_inv (ctx : Context) (n cm : ℤ) :
    ∀ (fuel : ℕ) (st : RhoState), (∃ a, st.g = ((Int.gcd a n : ℕ) : ℤ)) →
      ∃ a, (rhoOuter ctx n cm fuel st).g = ((Int.gcd a n : ℕ) : ℤ) := by
  intro fuel
  induction fuel with
  | zero =>
    intro st h
    exact h
  | succ fuel ih =>
    intro st h
    rw [rhoOuter]
    by_cases hcond : 1 < (rhoBatchLoop ctx n cm st.y 64 0 st.r
        (rhoAdvance ctx cm st.r st.y, st.ys, st.g)).2.2
    · rw [if_pos hcond]
      rcases rhoBatchLoop_g_inv ctx n cm st.y 64 0 st.r
          (rhoAdvance ctx cm st.r st.y, st.ys, st.g) with hh | hh
      · obtain ⟨a, ha⟩ := h
        refine ⟨a, ?_⟩
        show (rhoBatchLoop ctx n cm st.y 64 0 st.r
          (rhoAdvance ctx cm st.r st.y, st.ys, st.g)).2.2 = ((Int.gcd a n : ℕ) : ℤ)
        rw [hh]
        exact ha
      · exact hh
    · rw [if_neg hcond]
      apply ih
      rcases rhoBatchLoop_g_inv ctx n cm st.y 64 0 st.r
          (rhoAdvance ctx cm st.r st.y, st.ys, st.g) with hh | hh
      · obtain ⟨a, ha⟩ := h
        refine ⟨a, ?_⟩
        show (rhoBatchLoop ctx n cm st.y 64 0 st.r
          (rhoAdvance ctx cm st.r st.y, st.ys, st.g)).2.2 = ((Int.gcd a n : ℕ) : ℤ)
        rw [hh]
        exact ha
      · exact hh

theorem rhoOuter_g_start (ctx : Context) (n cm : ℤ) (f : ℕ) (st : RhoState)
    (hr : 0 < st.r) (hg : st.g < 2) :
    ∃ a, (rhoOuter ctx n cm (f + 1) st).g = ((Int.gcd a n : ℕ) : ℤ) := by
  rw [rhoOuter]
  have hfirst : ∃ a, (rhoBatchLoop ctx n cm st.y 64 0 st.r
      (rhoAdvance ctx cm st.r st.y, st.ys, st.g)).2.2 = ((Int.gcd a n : ℕ) : ℤ) :=
    rhoBatchLoop_g_first ctx n cm st.y 63 0 st.r
      (rhoAdvance ctx cm st.r st.y, st.ys, st.g) hr hg
  by_cases hcond : 1 < (rhoBatchLoop ctx n cm st.y 64 0 st.r
      (rhoAdvance ctx cm st.r st.y, st.ys, st.g)).2.2
  · rw [if_pos hcond]
    exact hfirst
  · rw [if_neg hcond]
    exact rhoOuter_g_inv ctx n cm f _ hfirst

theorem rhoFallback_g_inv (ctx : Context) (n cm x : ℤ) :
    ∀ (fuel : ℕ) (ys g0 : ℤ), (∃ a, g0 = ((Int.gcd a n : ℕ) : ℤ)) →
      (∀ g, rhoFallback ctx n cm x fuel ys g0 = Sum.inl g →
        1 < g ∧ g < n ∧ ∃ a, g = ((Int.gcd a n : ℕ) : ℤ)) ∧
      (∀ g, rhoFallback ctx n cm x fuel ys g0 = Sum.inr g →
        ∃ a, g = ((Int.gcd a n : ℕ) : ℤ)) := by
  intro fuel
  induction fuel with
  | zero =>
    intro ys g0 h
    constructor
    · intro g hg
      rw [rhoFallback] at hg
      exact Sum.noConfusion hg
    · intro g hg
      rw [rhoFallback] at hg
      obtain ⟨a, ha⟩ := h
      exact ⟨a, by rw [← Sum.inr.inj hg]; exact ha⟩
  | succ fuel ih =>
    intro ys g0 h
    by_cases hcond : 1 < ((Int.gcd (rhoBatch ctx cm x 128 (ys, ctx.r_mod_n)).2 n : ℕ) : ℤ) ∧
      ((Int.gcd (rhoBatch ctx cm x 128 (ys, ctx.r_mod_n)).2 n : ℕ) : ℤ) < n
    · constructor
      · intro g hg
        rw [rhoFallback, if_pos hcond] at hg
        have hgeq := Sum.inl.inj hg
        exact ⟨by rw [← hgeq]; exact hcond.1, by rw [← hgeq]; exact hcond.2,
          (rhoBatch ctx cm x 128 (ys, ctx.r_mod_n)).2, by rw [← hgeq]⟩
      · intro g hg
        rw [rhoFallback, if_pos hcond] at hg
        exact Sum.noConfusion hg
    · constructor
      · intro g hg
        rw [rhoFallback, if_neg hcond] at hg
        exact (ih (rhoBatch ctx cm x 128 (ys, ctx.r_mod_n)).1
          ((Int.gcd (rhoBatch ctx cm x 128 (ys, ctx.r_mod_n)).2 n : ℕ) : ℤ)
          ⟨(rhoBatch ctx cm x 128 (ys, ctx.r_mod_n)).2, rfl⟩).1 g hg
      · intro g hg
        rw [rhoFallback, if_neg hcond] at hg
        exact (ih (rhoBatch ctx cm x 128 (ys, ctx.r_mod_n)).1
          ((Int.gcd (rhoBatch ctx cm x 128 (ys, ctx.r_mod_n)).2 n : ℕ) : ℤ)
          ⟨(rhoBatch ctx cm x 128 (ys, ctx.r_mod_n)).2, rfl⟩).2 g hg

theorem gcd_form_facts (n g : ℤ) (hn : 1 < n) (h : ∃ a, g = ((Int.gcd a n : ℕ) : ℤ))
    (hne : g ≠ n) : g ∣ n ∧ 1 ≤ g ∧ g < n := by
  obtain ⟨a, ha⟩ := h
  have hdvd : g ∣ n := by rw [ha]; exact Int.gcd_dvd_right
  have hg0 : 0 ≤ g := by rw [ha]; positivity
  have hgne : g ≠ 0 := by
    rw [ha]
    intro hq
    have hq2 : Int.gcd a n = 0 := by exact_mod_cast hq
    have hq3 := Int.gcd_eq_zero_iff.mp hq2
    omega
  have hle : g ≤ n := Int.le_of_dvd (by omega) hdvd
  exact ⟨hdvd, by omega, by omega⟩

theorem rhoDecide_sound (ctx : Context) (n cm : ℤ) (hn : 1 < n) (st : RhoState)
    (hgf : ∃ a, st.g = ((Int.gcd a n : ℕ) : ℤ)) (g : ℤ)
    (h : rhoDecide ctx n cm st = some g) : g ∣ n ∧ 1 ≤ g ∧ g < n := by
  rw [rhoDecide] at h
  by_cases h1 : st.g = 1
  · rw [if_pos h1] at h
    exact Option.noConfusion h
  · rw [if_neg h1] at h
    by_cases h2 : st.g = n
    · rw [if_pos h2] at h
      obtain ⟨hinl, hinr⟩ := rhoFallback_g_inv ctx n cm st.x 128 st.ys st.g hgf
      cases hN : rhoFallback ctx n cm st.x 128 st.ys st.g with
      | inl a =>
        rw [hN] at h
        have hag : a = g := Option.some.inj h
        obtain ⟨ha1, ha2, hform⟩ := hinl a hN
        rw [← hag]
        exact gcd_form_facts n a hn hform (by omega)
      | inr b =>
        rw [hN] at h
        have hbg : (if b = n then none else some b) = some g := h
        by_cases h3 : b = n
        · rw [if_pos h3] at hbg
          exact Option.noConfusion hbg
        · rw [if_neg h3] at hbg
          rw [← Option.some.inj hbg]
          exact gcd_form_facts n b hn (hinr b hN) h3
    · rw [if_neg h2] at h
      have hsg : (if st.g = n then none else some st.g) = some g := h
      rw [if_neg h2] at hsg
      rw [← Option.some.inj hsg]
      exact gcd_form_facts n st.g hn hgf h2

/-- C5 counterexample: for the odd composite modulus `n = 1896907669 =
32909 · 57641` and random draws `c = 1`, `y = 2`, `pollard_rho_brent`
returns success (`some`) but the value written into `g` is `1`, which is
not a non-trivial factor (`¬ 1 < 1`): the 128-window backtrack loop can
exhaust its 128 iterations with a final window gcd of 1, and the
fall-through then returns that trivial gcd as a success. -/
theorem pollard_output_contract_counterexample :
    pollard_rho_brent 1896907669 1 2 = some 1 ∧
    (1896907669 : ℤ) = 32909 * 57641 ∧ Odd (1896907669 : ℤ) ∧ ¬ (1 : ℤ) < 1 := by
  constructor
  · have h := pollard_rho_brent_eq_natPollard 1896907669 ⟨948453834, by norm_num⟩
      (by norm_num) 1 2 (by norm_num) (by norm_num)
    have hnat : natPollard 1896907669 1 2 = some 1 := by decide
    calc pollard_rho_brent 1896907669 1 2
        = pollard_rho_brent 1896907669 ((1 : ℕ) : ℤ) ((2 : ℕ) : ℤ) := rfl
      _ = Option.map (fun m : ℕ => (m : ℤ)) (natPollard 1896907669 1 2) := h
      _ = some 1 := by rw [hnat]; rfl
  · exact ⟨by norm_num, ⟨948453834, by norm_num⟩, by norm_num⟩

/-- C5 (amended): for every modulus `n > 1` and any random draws, whenever
`pollard_rho_brent` returns `some g`, the value `g` is a positive proper
divisor of `n` (`g ∣ n`, `1 ≤ g` and `g < n`) — but not necessarily a
non-trivial one: `g = 1` is possible. -/
theorem pollard_output_contract_amended (n cIn yIn g : ℤ) (hn : 1 < n)
    (h : pollard_rho_brent n cIn yIn = some g) : g ∣ n ∧ 1 ≤ g ∧ g < n := by
  rw [pollard_rho_brent] at h
  have hgform : ∃ a, (rhoOuter (Context.new n) n ((Context.new n).toMontV cIn) 19
      ⟨1, 0, (Context.new n).toMontV yIn, 0, 0⟩).g = ((Int.gcd a n : ℕ) : ℤ) :=
    rhoOuter_g_start (Context.new n) n ((Context.new n).toMontV cIn) 18
      ⟨1, 0, (Context.new n).toMontV yIn, 0, 0⟩ (by exact Nat.one_pos)
      (by exact (show (0 : ℤ) < 2 by norm_num))
  exact rhoDecide_sound (Context.new n) n _ hn _ hgform g h

theorem pollard_output_contract_amended_witness :
    pollard_rho_brent 15 0 3 = some 3 ∧ ((3 : ℤ) ∣ 15 ∧ 1 ≤ (3 : ℤ) ∧ (3 : ℤ) < 15) := by
  have hrun : pollard_rho_brent 15 0 3 = some 3 := by decide
  exact ⟨hrun, pollard_output_contract_amended 15 0 3 3 (by norm_num) hrun⟩

/-! ### Claims C2, C7, C8, C9: the orchestrator and ECM fragments -/

theorem sqrtLoop_spec (v : ℕ) : 2 ≤ v → ∀ fuel, v ≤ fuel →
    2 ≤ sqrtLoop fuel v ∧ (∃ k, sqrtLoop fuel v ^ 2 ^ k = v) ∧
    is_perfect_square (sqrtLoop fuel v) = false := by
  induction v using Nat.strong_induction_on with
  | _ v ih =>
    intro h2 fuel hfuel
    obtain ⟨f, rfl⟩ : ∃ f, fuel = f + 1 := ⟨fuel - 1, by omega⟩
    cases hb : is_perfect_square v with
    | false =>
      have hout : sqrtLoop (f + 1) v = v := by rw [sqrtLoop, hb]; rfl
      rw [hout]
      exact ⟨h2, ⟨0, by rw [pow_zero, pow_one]⟩, hb⟩
    | true =>
      have hsq : isqrtFuel v * isqrtFuel v = v := by
        have hb2 : (isqrtFuel v * isqrtFuel v == v) = true := hb
        exact eq_of_beq hb2
      have hm2 : 2 ≤ isqrtFuel v := by
        by_contra hlt
        push_neg at hlt
        have hle : isqrtFuel v * isqrtFuel v ≤ 1 := by nlinarith
        rw [hsq] at hle
        omega
      have hmlt : isqrtFuel v < v :=
        calc isqrtFuel v < 2 * isqrtFuel v := by omega
          _ ≤ isqrtFuel v * isqrtFuel v := Nat.mul_le_mul_right _ hm2
          _ = v := hsq
      have hstep : sqrtLoop (f + 1) v = sqrtLoop f (isqrtFuel v) := by
        rw [sqrtLoop, hb]; rfl
      obtain ⟨hw2, ⟨k, hk⟩, hnps⟩ := ih (isqrtFuel v) hmlt hm2 f (by omega)
      rw [hstep]
      refine ⟨hw2, ⟨k + 1, ?_⟩, hnps⟩
      rw [pow_succ, pow_mul, hk, pow_two, hsq]

/-- C2: end-to-end soundness fails — it is broken by a code bug. On input
`n = 10009² = 100180081` with Pollard randomness `(c, y) = (1, 2)` for
every draw, the dispatch loop probable-prime-tests each popped STORED
residue before dividing out the primes found since it was stored: after
Pollard splits `10009²` into `10009 · 10009` and the first copy is pushed
onto `prime_factors`, the second stored residue `10009` is pushed AGAIN,
so `prime_factors = [10009, 10009]`. The first `find_exponents` pass then
runs `n.div_exact_mut(10009)` twice: the first strips `10009²` completely
(`n = 1`), and the second divides `1` by `10009` exactly — a non-exact
`div_exact`, which rug/GMP documents as undefined behavior — so the
returned list is not well-defined and the divides-guarantee fails. -/
theorem product_divides_dispatch_bug :
    (entryDispatch (10009 * 10009) [(1, 2), (1, 2), (1, 2)]).primeFactors =
      [10009, 10009] ∧
    prime_factorize_model (10009 * 10009) [(1, 2), (1, 2), (1, 2)] =
      EntryResult.ub 1 10009 ∧
    Nat.Prime 10009 := by
  refine ⟨by decide, by decide, by norm_num⟩

/-- C7 counterexample: at the realized first-stage ECM parameters
`B1 = 50000 = BOUNDS1.1` and `block_size = 2000 = BLOCK_SIZE_1`, the code
computes the starting block index `(B1 + B/2) / B = 25` by usize (floor)
division, while the claimed ceiling is `⌈(B1 + B/2) / B⌉ = 26`. -/
theorem ecm_phase2_cursor_counterexample :
    BOUNDS1.1 = 50000 ∧ BLOCK_SIZE_1 = 2000 ∧
    ecm_phase2_setup 50000 2000 = (25, 24, 50000) ∧
    ecm_phase2_cursor_claimed 50000 2000 = 26 ∧ (25 : ℕ) ≠ 26 := by
  refine ⟨rfl, rfl, by decide, by decide, by decide⟩

/-- C7 (amended): the phase-2 cursor starts at the FLOOR block index
`c0 = ⌊(B1 + B/2) / B⌋` (usize division), with its neighbor at `c0 - 1`
and cursor scalar `c0 · B`; the floor is characterized by
`c0·B ≤ B1 + B/2 < (c0+1)·B`. -/
theorem ecm_phase2_cursor_amended (B1 B : ℕ) (hB : 0 < B) :
    ecm_phase2_setup B1 B =
      ((B1 + B / 2) / B, (B1 + B / 2) / B - 1, (B1 + B / 2) / B * B) ∧
    (B1 + B / 2) / B * B ≤ B1 + B / 2 ∧
    B1 + B / 2 < ((B1 + B / 2) / B + 1) * B := by
  refine ⟨rfl, Nat.div_mul_le_self _ _, ?_⟩
  have h1 := Nat.div_add_mod (B1 + B / 2) B
  have h2 := Nat.mod_lt (B1 + B / 2) hB
  nlinarith [h1, h2]

theorem ecm_phase2_cursor_amended_witness :
    0 < 5000 ∧
    (ecm_phase2_setup 500000 5000 =
        ((500000 + 5000 / 2) / 5000, (500000 + 5000 / 2) / 5000 - 1,
          (500000 + 5000 / 2) / 5000 * 5000) ∧
      (500000 + 5000 / 2) / 5000 * 5000 ≤ 500000 + 5000 / 2 ∧
      500000 + 5000 / 2 < ((500000 + 5000 / 2) / 5000 + 1) * 5000) :=
  ⟨by norm_num, ecm_phase2_cursor_amended 500000 5000 (by norm_num)⟩

/-- C8 counterexample: the dispatch loop of `prime_factorize` does NOT
apply the claimed iterated square-root reduction. On the residue
`10009²` (with Pollard draws `(1, 2)` throughout), a dispatch loop that
reduced by discovered primes and then took square roots before the
probable-prime test (the claim's description, `dispatchLoopClaimed`)
would resolve the entry without ever calling Pollard: it yields
`prime_factors = [10009]` and leaves the whole randomness stream
unconsumed. The actual dispatch loop probable-prime-tests `10009²`
directly, fails, and must consume a Pollard draw. -/
theorem perfect_square_dispatch_counterexample :
    (entryDispatchClaimed (10009 * 10009) [(1, 2), (1, 2), (1, 2)]).primeFactors =
      [10009] ∧
    (entryDispatchClaimed (10009 * 10009) [(1, 2), (1, 2), (1, 2)]).stream =
      [(1, 2), (1, 2), (1, 2)] ∧
    (entryDispatch (10009 * 10009) [(1, 2), (1, 2), (1, 2)]).stream =
      [(1, 2), (1, 2)] ∧
    sqrtLoop (10009 * 10009) (10009 * 10009) = 10009 := by
  refine ⟨by decide, by decide, by decide, by decide⟩

/-- C8 (amended): the iterated square-root reduction lives in
`ecm_trial`'s per-curve preprocessing (ecm/mod.rs lines 329–353), not in
the orchestrator's dispatch loop: there, after dividing out the known
primes, the residue `v ≥ 2` is replaced by `sqrtLoop v v` before the
probable-prime test, and the reduced value `w` satisfies `w^(2^k) = v`
for some `k` with `w` no longer a perfect square. -/
theorem ecm_sqrt_reduction_amended (pf : List ℕ) (curval idx v : ℕ)
    (hv : (reduceByPrimes (List.drop idx pf) curval false).1 = v) (h2 : 2 ≤ v) :
    ecm_preprocess pf curval idx =
      (if isProbablyPrime (sqrtLoop v v) then EcmPre.foundPrime (sqrtLoop v v)
       else EcmPre.toCurve (sqrtLoop v v)) ∧
    2 ≤ sqrtLoop v v ∧ (∃ k, sqrtLoop v v ^ 2 ^ k = v) ∧
    is_perfect_square (sqrtLoop v v) = false := by
  obtain ⟨hw2, hpow, hnps⟩ := sqrtLoop_spec v h2 v (le_refl v)
  refine ⟨?_, hw2, hpow, hnps⟩
  rw [ecm_preprocess]
  rw [hv]
  rw [if_neg (by omega : ¬ v = 1)]

theorem ecm_sqrt_reduction_amended_witness :
    (reduceByPrimes (List.drop 0 []) 81 false).1 = 81 ∧ 2 ≤ 81 ∧
    (ecm_preprocess [] 81 0 =
        (if isProbablyPrime (sqrtLoop 81 81) then EcmPre.foundPrime (sqrtLoop 81 81)
         else EcmPre.toCurve (sqrtLoop 81 81)) ∧
      2 ≤ sqrtLoop 81 81 ∧ (∃ k, sqrtLoop 81 81 ^ 2 ^ k = 81) ∧
      is_perfect_square (sqrtLoop 81 81) = false) :=
  ⟨rfl, by norm_num, ecm_sqrt_reduction_amended [] 81 0 81 rfl (by norm_num)⟩

/-- C9 counterexample: `n = 0` is non-positive, yet `prime_factorize(0)`
does not return normally: `0` is even, and the even-stripping branch calls
`n.find_one(0).unwrap()`, where `find_one(0)` is `None` because `0` has no
set bit — the `unwrap()` panics. -/
theorem nonpositive_input_counterexample :
    (0 : ℤ) ≤ 0 ∧ prime_factorize_model 0 [] = EntryResult.panic :=
  ⟨le_refl 0, by decide⟩

/-- C9 (amended): `prime_factorize` does NOT handle all non-positive
inputs normally: for `n = 0` it panics on `find_one(0).unwrap()` in the
even-stripping branch, for every realization of the internal
randomness. -/
theorem nonpositive_input_amended (stream : List (ℕ × ℕ)) :
    prime_factorize_model 0 stream = EntryResult.panic := rfl

end MathAlgorithms
